import Mathlib

/-!
Verification model of `xenium::harris_michael_hash_map`
(src/xenium/harris_michael_hash_map.hpp).

The hash map is an array of `Buckets` bucket heads; each bucket is a
Harris-Michael sorted linked list of heap nodes whose `next` pointer carries a
one-bit deletion mark.  We embed the data structure shallowly:

* the node heap is an association list `Addr → Node`;
* `marked_ptr` becomes `MarkedPtr` (an optional address plus the mark bit);
* `concurrent_ptr*` locations (`find_info::prev`) become `Ref`: either a
  bucket head or the `next` field of a heap node;
* each atomic load / store / CAS becomes an explicit read / write of the
  state, executed sequentially in program order (the single-thread projection
  of the algorithm; CAS failure paths and retry loops are kept, so every
  branch of the source is represented, and all loops take explicit fuel);
* `guard_ptr` protection handles become plain optional addresses (`cur`,
  `save`); `reclaim` removes the node from the heap at the point where the
  scheme would eventually free it.

Keys and values are specialized to `Nat`; `std::hash<Key>` is a function
parameter `hash : Nat → Nat`.
-/

namespace HarrisMichael

/-- Heap address of a node. -/
abbrev Addr := Nat

/-- `concurrent_ptr::marked_ptr`: a pointer (possibly null) tagged with the
deletion mark bit. -/
structure MarkedPtr where
  addr : Option Addr
  mark : Bool
deriving DecidableEq, Repr

/-- The null, unmarked pointer (a default-constructed `marked_ptr`). -/
def MarkedPtr.null : MarkedPtr := ⟨none, false⟩

/-- `struct node { value_type value; concurrent_ptr next; }` with
`value_type = std::pair<const Key, Value>` flattened into `key`/`value`. -/
structure Node where
  key : Nat
  value : Nat
  next : MarkedPtr
deriving DecidableEq, Repr

/-- The node heap: allocated nodes, keyed by address. -/
abbrev Heap := List (Addr × Node)

/-- Dereference address `a` (returns `none` when the storage was reclaimed). -/
def lookupHeap (h : Heap) (a : Addr) : Option Node :=
  (h.find? (fun x => x.1 == a)).map (·.2)

/-- Store `v` into `a->next` (the only field the algorithm mutates after a
node is published). -/
def setNextHeap (h : Heap) (a : Addr) (v : MarkedPtr) : Heap :=
  h.map (fun x => if x.1 = a then (x.1, { x.2 with next := v }) else x)

/-- Store `v` into `a->value.second`.  Used only to model the assignment that
the reference returned by `iterator::operator*` / `operator->` permits
(`value_type` is `std::pair<const Key, Value>`: the `Value` component is not
const-qualified). -/
def setValueHeap (h : Heap) (a : Addr) (v : Nat) : Heap :=
  h.map (fun x => if x.1 = a then (x.1, { x.2 with value := v }) else x)

/-- Free the storage of node `a` (the eventual effect of `guard_ptr::reclaim`
once no thread protects the node; in the sequential projection this happens
immediately). -/
def removeAddr (h : Heap) (a : Addr) : Heap :=
  h.filter (fun x => x.1 != a)

/-- A `concurrent_ptr*`: the address of an atomic tagged pointer, which is
either one of the bucket heads or the `next` field of a node. -/
inductive Ref where
  | bucket : Nat → Ref
  | node : Addr → Ref
deriving DecidableEq, Repr

/-- The whole map state: the bucket-head array `concurrent_ptr buckets[Buckets]`,
the node heap, and the allocator's next fresh address. -/
structure HMap where
  buckets : List MarkedPtr
  heap : Heap
  nextAddr : Addr
deriving DecidableEq, Repr

/-- The head pointer of bucket `i`. -/
def bucketHead (m : HMap) (i : Nat) : MarkedPtr :=
  m.buckets.getD i MarkedPtr.null

/-- Atomic load of the tagged pointer at `r`; `none` models dereferencing a
null/invalid location. -/
def readRef (m : HMap) (r : Ref) : Option MarkedPtr :=
  match r with
  | Ref.bucket i => m.buckets[i]?
  | Ref.node a => (lookupHeap m.heap a).map (·.next)

/-- Atomic store of `v` to the tagged pointer at `r` (the write half of a
successful CAS). -/
def writeRef (m : HMap) (r : Ref) (v : MarkedPtr) : HMap :=
  match r with
  | Ref.bucket i => { m with buckets := m.buckets.set i v }
  | Ref.node a => { m with heap := setNextHeap m.heap a v }

/-- `guard_ptr::reclaim` on node `a`: retire and (in the sequential
projection) free it. -/
def reclaim (m : HMap) (a : Addr) : HMap :=
  { m with heap := removeAddr m.heap a }

/-- `new node(args...)`: allocate a fresh node whose `next` is
default-initialized to null. -/
def allocNode (m : HMap) (key v : Nat) : Addr × HMap :=
  (m.nextAddr,
   { m with
     heap := m.heap ++ [(m.nextAddr, ⟨key, v, MarkedPtr.null⟩)],
     nextAddr := m.nextAddr + 1 })

/-- `struct find_info { concurrent_ptr* prev; marked_ptr next; guard_ptr cur;
guard_ptr save; }`.  `prev` is `none` when the pointer is null (the
default-constructed state used by the end iterator). -/
structure FindInfo where
  prev : Option Ref
  next : MarkedPtr
  cur : Option Addr
  save : Option Addr
deriving DecidableEq, Repr

/-- `find_info info{&buckets[bucket]}`: the cursor every map operation starts
from (aggregate initialization leaves the remaining fields defaulted). -/
def headInfo (bucket : Nat) : FindInfo :=
  ⟨some (Ref.bucket bucket), MarkedPtr.null, none, none⟩

/-- Control state of the `find` kernel: `restart` is the `retry:` label with
the current anchor `(start, start_guard)`; `walk` is the `for (;;)` loop with
the working cursor `(prev, next, save)`. -/
inductive FindState where
  | restart (start : Ref) (sg : Option Addr)
  | walk (start : Ref) (sg : Option Addr) (prev : Ref) (next : MarkedPtr) (save : Option Addr)
deriving DecidableEq, Repr

/-- The body of `harris_michael_hash_map::find(key, bucket, info, backoff)`
(lines 344-407), as a fueled transition function.  Every branch of the source
is present:

* `restart`: reload from the anchor; if the anchor's pointer is marked the
  anchor's node is being removed, so re-anchor to the bucket head;
* `walk`: `acquire_if_equal(*prev, next)` (re-read `*prev` and compare with
  `next`; on mismatch go back to `retry:`); null `cur` returns false
  (end of list); a marked `cur->next` triggers the helping unlink
  (re-read the successor, strip its mark, CAS `*prev` from `cur` to it,
  retire `cur`; on CAS failure back off and go to `retry:`); otherwise
  re-validate `*prev == cur`, compare keys, and either return or advance
  (`prev := &cur->next`, swap `save`/`cur`).

Fuel exhaustion and invalid dereferences yield `none`. -/
def findGo (key bucket : Nat) : HMap → FindState → Nat → Option (Bool × FindInfo × HMap)
  | _, _, 0 => none
  | m, FindState.restart start sg, fuel+1 =>
    match readRef m start with
    | none => none
    | some next =>
      if next.mark then
        findGo key bucket m (FindState.restart (Ref.bucket bucket) none) fuel
      else
        findGo key bucket m (FindState.walk start sg start next sg) fuel
  | m, FindState.walk start sg prev next save, fuel+1 =>
    match readRef m prev with
    | none => none
    | some obs =>
      if obs ≠ next then
        findGo key bucket m (FindState.restart start sg) fuel
      else
        match next.addr with
        | none => some (false, ⟨some prev, next, none, save⟩, m)
        | some a =>
          match lookupHeap m.heap a with
          | none => none
          | some nd =>
            if nd.next.mark then
              let succ : MarkedPtr := ⟨nd.next.addr, false⟩
              if readRef m prev = some ⟨some a, false⟩ then
                findGo key bucket (reclaim (writeRef m prev succ) a)
                  (FindState.walk start sg prev succ save) fuel
              else
                findGo key bucket m (FindState.restart start sg) fuel
            else
              if readRef m prev ≠ some ⟨some a, false⟩ then
                findGo key bucket m (FindState.restart start sg) fuel
              else if key ≤ nd.key then
                some (decide (nd.key = key), ⟨some prev, nd.next, some a, save⟩, m)
              else
                findGo key bucket m (FindState.walk start sg (Ref.node a) nd.next (some a)) fuel

/-- `find(key, bucket, info, backoff)`: capture the caller's
`(info.prev, info.save)` as the anchor (`start`, `start_guard`) and run the
kernel.  Calling with a null `prev` is invalid (the source asserts the cursor
is consistent on entry). -/
def find (key bucket : Nat) (m : HMap) (info : FindInfo) (fuel : Nat) :
    Option (Bool × FindInfo × HMap) :=
  match info.prev with
  | none => none
  | some start => findGo key bucket m (FindState.restart start info.save) fuel

/-- Fuel that is always sufficient for one sequential `find`: one `restart`
step plus at most one `walk` step per live node plus the final step. -/
def findFuel (m : HMap) : Nat := m.heap.length + 2

/-- The iterator: `{ map, bucket, cursor }` (the map pointer is implicit:
operations on the iterator take the map state explicitly). -/
structure Iter where
  bucket : Nat
  info : FindInfo
deriving DecidableEq, Repr

/-- `end()` / `iterator(map)`: `bucket = Buckets`, default `find_info`. -/
def endIter (m : HMap) : Iter :=
  ⟨m.buckets.length, ⟨none, MarkedPtr.null, none, none⟩⟩

/-- `iterator::operator==`: two iterators compare equal iff their `cur`
pointers are identical. -/
def iterEq (a b : Iter) : Bool :=
  a.info.cur == b.info.cur

/-- The loop of `iterator::move_to_next_bucket`:
`while (!info.cur && bucket < Buckets - 1) { ++bucket; info.prev = &buckets[bucket];
info.cur.acquire(*info.prev); }`, with fuel bounding the (already bounded)
iteration count. -/
def moveLoop (m : HMap) : Nat → FindInfo → Nat → Nat × FindInfo
  | bucket, info, 0 => (bucket, info)
  | bucket, info, k+1 =>
    if info.cur = none ∧ bucket < m.buckets.length - 1 then
      let b := bucket + 1
      let hd := m.buckets.getD b MarkedPtr.null
      moveLoop m b ⟨some (Ref.bucket b), info.next, hd.addr, none⟩ k
    else
      (bucket, info)

/-- `iterator::move_to_next_bucket` (lines 312-320): release `save`, then
advance the bucket index, loading each head, while `cur` is null and
`bucket < Buckets - 1`. -/
def moveToNextBucket (m : HMap) (it : Iter) : Iter :=
  let info0 : FindInfo := { it.info with save := none }
  let r := moveLoop m it.bucket info0 (m.buckets.length - it.bucket)
  ⟨r.1, r.2⟩

/-- `begin()` = `iterator(map, 0)` (lines 294-304): position at bucket 0,
acquire its head, and if null move to the next non-empty bucket.  `none` when
the map has no bucket 0 (`Buckets = 0`, ill-formed in the source). -/
def begin (m : HMap) : Option Iter :=
  match m.buckets[0]? with
  | none => none
  | some hd =>
    let info : FindInfo := ⟨some (Ref.bucket 0), MarkedPtr.null, hd.addr, none⟩
    let it : Iter := ⟨0, info⟩
    some (if info.cur = none then moveToNextBucket m it else it)

/-- `contains(key)` (lines 409-416): one kernel call on
`bucket = hash(key) % Buckets` from a head-anchored cursor.  The trailing
`Nat` counts kernel (`find`) invocations. -/
def contains (hash : Nat → Nat) (m : HMap) (key : Nat) : Option (Bool × HMap × Nat) :=
  let bucket := hash key % m.buckets.length
  (find key bucket m (headInfo bucket) (findFuel m)).map (fun r => (r.1, r.2.2, 1))

/-- `find(key) → iterator` (lines 418-427): on success wrap the cursor as an
iterator at `(bucket, info)`, otherwise return `end()`. -/
def findKey (hash : Nat → Nat) (m : HMap) (key : Nat) : Option (Iter × HMap × Nat) :=
  let bucket := hash key % m.buckets.length
  match find key bucket m (headInfo bucket) (findFuel m) with
  | none => none
  | some (true, info, m') => some (⟨bucket, info⟩, m', 1)
  | some (false, _, m') => some (endIter m', m', 1)

/-- The `for (;;)` loop of `emplace_or_get` (lines 531-553) for an already
allocated node `n`: `find`; if present delete `n` and return `(iter, false)`;
otherwise store `cur` into `n->next`, CAS `*prev` from `cur` to `n`
(release), returning `(iter, true)` on success and relooping (after backoff)
on failure. -/
def emplaceOrGetLoop (key : Nat) (n : Addr) (bucket : Nat) :
    HMap → FindInfo → Nat → Nat → Option ((Iter × Bool) × HMap × Nat)
  | _, _, _, 0 => none
  | m, info, cnt, fuel+1 =>
    match find key bucket m info (findFuel m) with
    | none => none
    | some (found, info1, m1) =>
      if found then
        some ((⟨bucket, info1⟩, false), reclaim m1 n, cnt + 1)
      else
        let cur : MarkedPtr := ⟨info1.cur, false⟩
        let info2 : FindInfo := { info1 with cur := some n }
        let m2 : HMap := { m1 with heap := setNextHeap m1.heap n cur }
        match info1.prev with
        | none => none
        | some pr =>
          if readRef m2 pr = some cur then
            some ((⟨bucket, info2⟩, true), writeRef m2 pr ⟨some n, false⟩, cnt + 1)
          else
            emplaceOrGetLoop key n bucket m2 info2 (cnt + 1) fuel

/-- `emplace_or_get(args...)` (lines 521-554): construct the node up front
(`value_type(args...)`, here `(key, v)`), compute
`bucket = hash(n->value.first) % Buckets`, then run the insertion loop. -/
def emplace_or_get (hash : Nat → Nat) (m : HMap) (key v : Nat) (fuel : Nat) :
    Option ((Iter × Bool) × HMap × Nat) :=
  let a := allocNode m key v
  let bucket := hash key % m.buckets.length
  emplaceOrGetLoop key a.1 bucket a.2 (headInfo bucket) 0 fuel

/-- `emplace(args...)` (lines 429-435): run `emplace_or_get` and return only
the boolean component of its result. -/
def emplace (hash : Nat → Nat) (m : HMap) (key v : Nat) (fuel : Nat) :
    Option (Bool × HMap × Nat) :=
  (emplace_or_get hash m key v fuel).map (fun r => (r.1.2, r.2))

/-- The `for (;;)` loop of `get_or_emplace` (lines 448-477): like
`emplaceOrGetLoop`, but the node is constructed lazily — only after the first
`find` that reports the key absent (`if (n == nullptr) { n = new node(...); }`);
`delete n` on the found path is a no-op while `n` is still null.  (The
source's `pkey` switch re-points the probe key into the node; key values are
immutable here, so the probe key is unchanged.) -/
def getOrEmplaceLoop (key v : Nat) (bucket : Nat) :
    HMap → Option Addr → FindInfo → Nat → Nat → Option ((Iter × Bool) × HMap × Nat)
  | _, _, _, _, 0 => none
  | m, nOpt, info, cnt, fuel+1 =>
    match find key bucket m info (findFuel m) with
    | none => none
    | some (found, info1, m1) =>
      if found then
        some ((⟨bucket, info1⟩, false),
          (match nOpt with | none => m1 | some n => reclaim m1 n), cnt + 1)
      else
        let alloc := match nOpt with
          | none => allocNode m1 key v
          | some n => (n, m1)
        let n := alloc.1
        let cur : MarkedPtr := ⟨info1.cur, false⟩
        let info2 : FindInfo := { info1 with cur := some n }
        let m2 : HMap := { alloc.2 with heap := setNextHeap alloc.2.heap n cur }
        match info1.prev with
        | none => none
        | some pr =>
          if readRef m2 pr = some cur then
            some ((⟨bucket, info2⟩, true), writeRef m2 pr ⟨some n, false⟩, cnt + 1)
          else
            getOrEmplaceLoop key v bucket m2 (some n) info2 (cnt + 1) fuel

/-- `get_or_emplace(key, args...)` (lines 437-478). -/
def get_or_emplace (hash : Nat → Nat) (m : HMap) (key v : Nat) (fuel : Nat) :
    Option ((Iter × Bool) × HMap × Nat) :=
  let bucket := hash key % m.buckets.length
  getOrEmplaceLoop key v bucket m none (headInfo bucket) 0 fuel

/-- The `for (;;)` loop of `get_or_emplace_lazy` (lines 491-518).  Identical
to `getOrEmplaceLoop` except that node construction invokes the
user-supplied factory: `n = new node(std::move(key), value_factory())`.  The
factory is modeled by the value `fv` it produces plus an invocation counter
(the last component of the result), incremented exactly where
`value_factory()` is called in the source. -/
def getOrEmplaceLazyLoop (key fv : Nat) (bucket : Nat) :
    HMap → Option Addr → FindInfo → Nat → Nat → Nat → Option ((Iter × Bool) × HMap × Nat × Nat)
  | _, _, _, _, _, 0 => none
  | m, nOpt, info, cnt, fcnt, fuel+1 =>
    match find key bucket m info (findFuel m) with
    | none => none
    | some (found, info1, m1) =>
      if found then
        some ((⟨bucket, info1⟩, false),
          (match nOpt with | none => m1 | some n => reclaim m1 n), cnt + 1, fcnt)
      else
        let alloc := match nOpt with
          | none => (allocNode m1 key fv, fcnt + 1)
          | some n => ((n, m1), fcnt)
        let n := alloc.1.1
        let cur : MarkedPtr := ⟨info1.cur, false⟩
        let info2 : FindInfo := { info1 with cur := some n }
        let m2 : HMap := { alloc.1.2 with heap := setNextHeap alloc.1.2.heap n cur }
        match info1.prev with
        | none => none
        | some pr =>
          if readRef m2 pr = some cur then
            some ((⟨bucket, info2⟩, true), writeRef m2 pr ⟨some n, false⟩, cnt + 1, alloc.2)
          else
            getOrEmplaceLazyLoop key fv bucket m2 (some n) info2 (cnt + 1) alloc.2 fuel

/-- `get_or_emplace_lazy(key, value_factory)` (lines 480-519). -/
def get_or_emplace_lazy (hash : Nat → Nat) (m : HMap) (key fv : Nat) (fuel : Nat) :
    Option ((Iter × Bool) × HMap × Nat × Nat) :=
  let bucket := hash key % m.buckets.length
  getOrEmplaceLazyLoop key fv bucket m none (headInfo bucket) 0 0 fuel

/-- The `do { find; } while (!CAS(cur->next, next, marked(next)))` loop of
`erase(key)` (lines 563-572): locate the node and set the logical-deletion
mark on its `next` pointer; a failed CAS stores the observed value back into
`info.next` and reloops from `find`. -/
def eraseLoop (key : Nat) (bucket : Nat) :
    HMap → FindInfo → Nat → Nat → Option (Bool × FindInfo × HMap × Nat)
  | _, _, _, 0 => none
  | m, info, cnt, fuel+1 =>
    match find key bucket m info (findFuel m) with
    | none => none
    | some (found, info1, m1) =>
      if !found then
        some (false, info1, m1, cnt + 1)
      else
        match info1.cur with
        | none => none
        | some a =>
          match lookupHeap m1.heap a with
          | none => none
          | some nd =>
            if nd.next = info1.next then
              some (true, info1,
                { m1 with heap := setNextHeap m1.heap a ⟨info1.next.addr, true⟩ }, cnt + 1)
            else
              eraseLoop key bucket m1 { info1 with next := nd.next } (cnt + 1) fuel

/-- `erase(key)` (lines 556-592).  Phase 1 (`eraseLoop`): find and logically
delete.  Phase 2: CAS `*prev` from `cur` to `next.get()` (physical unlink);
on success retire `cur`, on failure re-run `find` to force the helping
unlink to completion before returning true. -/
def erase (hash : Nat → Nat) (m : HMap) (key : Nat) (fuel : Nat) :
    Option (Bool × HMap × Nat) :=
  let bucket := hash key % m.buckets.length
  match eraseLoop key bucket m (headInfo bucket) 0 fuel with
  | none => none
  | some (false, _, m1, cnt) => some (false, m1, cnt)
  | some (true, info, m2, cnt) =>
    match info.cur, info.prev with
    | some a, some pr =>
      if readRef m2 pr = some ⟨some a, false⟩ then
        some (true, reclaim (writeRef m2 pr ⟨info.next.addr, false⟩) a, cnt)
      else
        match find key bucket m2 info (findFuel m2) with
        | none => none
        | some (_, _, m3) => some (true, m3, cnt + 1)
    | _, _ => none

/-- The marking loop of `erase(iterator)` (lines 598-610):
`next = cur->next.load(); while (next.mark() == 0) { if (CAS(cur->next, next,
marked(next))) break; backoff; }`; a failed CAS stores the observed value
back into `next`. -/
def eraseIterMarkLoop (m : HMap) (a : Addr) : MarkedPtr → Nat → Option (MarkedPtr × HMap)
  | _, 0 => none
  | next, fuel+1 =>
    if next.mark then
      some (next, m)
    else
      match lookupHeap m.heap a with
      | none => none
      | some nd =>
        if nd.next = next then
          some (next, { m with heap := setNextHeap m.heap a ⟨next.addr, true⟩ })
        else
          eraseIterMarkLoop m a nd.next fuel

/-- `erase(iterator pos)` (lines 594-637): mark `cur->next`, take the
observed successor, CAS `*prev` from `cur` to it; on success retire the old
`cur` and step the iterator to the successor, on failure re-run `find` on
`cur`'s key to repair the cursor; finally advance to the next bucket if the
cursor ran off the list. -/
def eraseIter (m : HMap) (pos : Iter) (fuel : Nat) : Option (Iter × HMap × Nat) :=
  match pos.info.cur, pos.info.prev with
  | some a, some pr =>
    match lookupHeap m.heap a with
    | none => none
    | some nd =>
      match eraseIterMarkLoop m a nd.next fuel with
      | none => none
      | some (next, m2) =>
        if readRef m2 pr = some ⟨some a, false⟩ then
          let m3 := reclaim (writeRef m2 pr ⟨next.addr, false⟩) a
          let info2 : FindInfo := { pos.info with cur := next.addr }
          let pos2 : Iter := ⟨pos.bucket, info2⟩
          some (if info2.cur = none then moveToNextBucket m3 pos2 else pos2, m3, 0)
        else
          match find nd.key pos.bucket m2 pos.info (findFuel m2) with
          | none => none
          | some (_, info2, m3) =>
            let pos2 : Iter := ⟨pos.bucket, info2⟩
            some (if info2.cur = none then moveToNextBucket m3 pos2 else pos2, m3, 1)
  | _, _ => none

/-- The assignment `pos->second = v`, which the interface permits: both
`operator*` (line 276) and `operator->` (line 277) return a non-const
reference/pointer to `value_type = std::pair<const Key, Value>` (line 37),
whose second component is not const-qualified.  (The first component — the
key — is `const Key` and admits no such assignment.) -/
def iterAssignSecond (m : HMap) (pos : Iter) (v : Nat) : HMap :=
  match pos.info.cur with
  | none => m
  | some a => { m with heap := setValueHeap m.heap a v }

/-! ## Specification-level definitions -/

/-- `IsChain h p l`: starting from the tagged pointer `p`, following `next`
links visits exactly the nodes of `l` (address paired with node contents) and
ends at null.  This is "reachable from `p`" for bucket lists. -/
def IsChain (h : Heap) : MarkedPtr → List (Addr × Node) → Prop
  | p, [] => p.addr = none
  | p, x :: rest => p.addr = some x.1 ∧ lookupHeap h x.1 = some x.2 ∧ IsChain h x.2.next rest

/-- The keys along a chain. -/
def keysOf (l : List (Addr × Node)) : List Nat :=
  l.map (·.2.key)

/-- A well-formed bucket list: the chain from the head of bucket `i`,
unmarked head, strictly increasing keys, no logically deleted (marked) nodes,
and every node hashed into this bucket. -/
def GoodChain (hash : Nat → Nat) (m : HMap) (i : Nat) (l : List (Addr × Node)) : Prop :=
  IsChain m.heap (bucketHead m i) l ∧
  (bucketHead m i).mark = false ∧
  List.Pairwise (· < ·) (keysOf l) ∧
  ∀ x ∈ l, x.2.next.mark = false ∧ hash x.2.key % m.buckets.length = i

/-- The global state invariant: at least one bucket, duplicate-free heap
addresses below the allocation counter, and a well-formed list in every
bucket. -/
def Inv (hash : Nat → Nat) (m : HMap) : Prop :=
  0 < m.buckets.length ∧
  (m.heap.map Prod.fst).Nodup ∧
  (∀ x ∈ m.heap, x.1 < m.nextAddr) ∧
  ∀ i, i < m.buckets.length → ∃ l, GoodChain hash m i l

/-- Key `k` is live: some node with key `k` is reachable from the head of its
bucket. -/
def KeyLive (hash : Nat → Nat) (m : HMap) (k : Nat) : Prop :=
  ∃ l x, IsChain m.heap (bucketHead m (hash k % m.buckets.length)) l ∧ x ∈ l ∧ x.2.key = k

/-- Ordering along every bucket: adjacent reachable nodes have strictly
increasing keys (and no reachable node is marked). -/
def SortedBuckets (m : HMap) : Prop :=
  ∀ i l, i < m.buckets.length → IsChain m.heap (bucketHead m i) l →
    List.Chain' (· < ·) (keysOf l) ∧ ∀ x ∈ l, x.2.next.mark = false

/-- Each key occurs at most once among the live nodes of the whole map. -/
def UniqueLiveKeys (m : HMap) : Prop :=
  ∀ i j li lj xi xj, i < m.buckets.length → j < m.buckets.length →
    IsChain m.heap (bucketHead m i) li → IsChain m.heap (bucketHead m j) lj →
    xi ∈ li → xj ∈ lj → xi.2.key = xj.2.key → i = j ∧ xi = xj

/-- The `concurrent_ptr*` at position `lo` along a bucket list: the bucket
head itself when `lo` is empty, otherwise the `next` field of the last node
of `lo`. -/
def posRef (bucket : Nat) (lo : List (Addr × Node)) : Ref :=
  match lo.getLast? with
  | none => Ref.bucket bucket
  | some x => Ref.node x.1

/-- The `save` guard at position `lo`: the node owning `posRef bucket lo`
(none iff that is the bucket head). -/
def posSave (lo : List (Addr × Node)) : Option Addr :=
  lo.getLast?.map (·.1)

/-- The tagged-pointer value stored at position `lo` of a chain starting at
`p`: `p` itself at the head, otherwise the last node's `next`. -/
def linkPtr (p : MarkedPtr) (lo : List (Addr × Node)) : MarkedPtr :=
  match lo.getLast? with
  | none => p
  | some x => x.2.next

/-- Address of the first node of a chain suffix (none at end of list). -/
def headAddr (l : List (Addr × Node)) : Option Addr :=
  l.head?.map (·.1)

/-- Updating the `next` field of the last node of a list segment (the effect,
on the old chain prefix, of the CAS that redirects its outgoing link). -/
def setLastNext (l : List (Addr × Node)) (v : MarkedPtr) : List (Addr × Node) :=
  match l with
  | [] => []
  | [x] => [(x.1, { x.2 with next := v })]
  | x :: rest => x :: setLastNext rest v

/-- The boolean the kernel returns when its cursor stops at the suffix `hi`
of the bucket list: true iff the first remaining node carries the key. -/
def foundIn (hi : List (Addr × Node)) (key : Nat) : Bool :=
  match hi.head? with
  | none => false
  | some x => decide (x.2.key = key)

/-- The `info.next` value the kernel returns when its cursor stops at the
suffix `hi`: the successor of the found node, or null at end of list. -/
def nextOf (hi : List (Addr × Node)) : MarkedPtr :=
  match hi.head? with
  | none => MarkedPtr.null
  | some x => x.2.next

/-- A valid iterator cursor positioned on a node: `prev`/`cur`/`save`
describe an actual position `(lo, x, tl)` in the bucket's list (the iterator
invariant of §4.4 needed by `erase(iterator)`). -/
def ValidCursor (hash : Nat → Nat) (m : HMap) (pos : Iter) : Prop :=
  pos.bucket < m.buckets.length ∧
  ∃ lo x tl, GoodChain hash m pos.bucket (lo ++ x :: tl) ∧
    pos.info.prev = some (posRef pos.bucket lo) ∧
    pos.info.cur = some x.1 ∧
    pos.info.save = posSave lo

/-- The empty map with `b` buckets. -/
def emptyMap (b : Nat) : HMap :=
  ⟨List.replicate b MarkedPtr.null, [], 0⟩

/-- A concrete one-bucket map holding the single pair `(5, 7)` in node 0. -/
def mapOne : HMap :=
  ⟨[⟨some 0, false⟩], [(0, ⟨5, 7, MarkedPtr.null⟩)], 1⟩

/-- An iterator of `mapOne` positioned on its node. -/
def iterOne : Iter :=
  ⟨0, ⟨some (Ref.bucket 0), MarkedPtr.null, some 0, none⟩⟩

/-! ## Heap lemmas -/

theorem lookupHeap_mem {h : Heap} {a : Addr} {nd : Node} (hl : lookupHeap h a = some nd) :
    (a, nd) ∈ h := by
  unfold lookupHeap at hl
  cases hfind : h.find? (fun x => x.1 == a) with
  | none => rw [hfind] at hl; cases hl
  | some y =>
    rw [hfind] at hl
    have hy := List.mem_of_find?_eq_some hfind
    have hp : y.1 = a := by simpa using List.find?_some hfind
    have h2 : y.2 = nd := by simpa using hl
    have hya : (a, nd) = y := by cases y; simp_all
    rw [hya]; exact hy

theorem lookupHeap_nil (a : Addr) : lookupHeap [] a = none := rfl

theorem lookupHeap_cons (y : Addr × Node) (t : Heap) (a : Addr) :
    lookupHeap (y :: t) a = if y.1 = a then some y.2 else lookupHeap t a := by
  by_cases hy : y.1 = a <;> simp [lookupHeap, List.find?_cons, hy]

theorem lookupHeap_mapAt (h : Heap) (b : Addr) (g : Node → Node) (a : Addr) :
    lookupHeap (h.map (fun x => if x.1 = b then (x.1, g x.2) else x)) a =
      if a = b then (lookupHeap h a).map g else lookupHeap h a := by
  induction h with
  | nil => by_cases hab : a = b <;> simp [lookupHeap_nil, hab]
  | cons y t ih =>
    rw [List.map_cons]
    by_cases hyb : y.1 = b
    · rw [if_pos hyb]
      by_cases hya : y.1 = a
      · have hab : a = b := by rw [← hya, hyb]
        rw [lookupHeap_cons, if_pos hya, lookupHeap_cons, if_pos hya, if_pos hab]
        rfl
      · rw [lookupHeap_cons, if_neg hya, lookupHeap_cons, if_neg hya, ih]
    · rw [if_neg hyb]
      by_cases hya : y.1 = a
      · have hab : ¬a = b := fun hab => hyb (by rw [hya, hab])
        rw [lookupHeap_cons, if_pos hya, if_neg hab, lookupHeap_cons, if_pos hya]
      · rw [lookupHeap_cons, if_neg hya, lookupHeap_cons, if_neg hya, ih]

theorem lookupHeap_setNext (h : Heap) (b : Addr) (v : MarkedPtr) (a : Addr) :
    lookupHeap (setNextHeap h b v) a =
      if a = b then (lookupHeap h a).map (fun nd => { nd with next := v })
      else lookupHeap h a :=
  lookupHeap_mapAt h b (fun nd => { nd with next := v }) a

theorem lookupHeap_setValue (h : Heap) (b : Addr) (v : Nat) (a : Addr) :
    lookupHeap (setValueHeap h b v) a =
      if a = b then (lookupHeap h a).map (fun nd => { nd with value := v })
      else lookupHeap h a :=
  lookupHeap_mapAt h b (fun nd => { nd with value := v }) a

theorem lookupHeap_removeAddr (h : Heap) (b : Addr) (a : Addr) :
    lookupHeap (removeAddr h b) a = if a = b then none else lookupHeap h a := by
  induction h with
  | nil => by_cases hab : a = b <;> simp [removeAddr, lookupHeap_nil, hab]
  | cons y t ih =>
    by_cases hyb : y.1 = b
    · have hstep : removeAddr (y :: t) b = removeAddr t b := by
        unfold removeAddr; simp [List.filter_cons, hyb]
      rw [hstep, ih]
      by_cases hab : a = b
      · simp [hab]
      · have hya : ¬y.1 = a := fun hya => hab (by rw [← hya, hyb])
        rw [lookupHeap_cons, if_neg hya]
    · have hstep : removeAddr (y :: t) b = y :: removeAddr t b := by
        unfold removeAddr; simp [List.filter_cons, hyb]
      rw [hstep, lookupHeap_cons, lookupHeap_cons, ih]
      by_cases hya : y.1 = a
      · have hab : ¬a = b := fun hab => hyb (by rw [hya, hab])
        simp [hya, hab]
      · simp [hya]

theorem lookupHeap_append (h t : Heap) (a : Addr) :
    lookupHeap (h ++ t) a =
      match lookupHeap h a with
      | some nd => some nd
      | none => lookupHeap t a := by
  induction h with
  | nil => simp [lookupHeap_nil]
  | cons y s ih =>
    by_cases hy : y.1 = a <;> simp [lookupHeap_cons, List.cons_append, hy, ih]

theorem lookupHeap_append_ne {h : Heap} {n : Addr} (nd : Node) {a : Addr} (ha : a ≠ n) :
    lookupHeap (h ++ [(n, nd)]) a = lookupHeap h a := by
  rw [lookupHeap_append]
  cases hl : lookupHeap h a with
  | some x => rfl
  | none =>
    have hna : ¬n = a := fun hna => ha hna.symm
    simp [lookupHeap_cons, lookupHeap_nil, hna]

theorem lookupHeap_append_self {h : Heap} {n : Addr} (nd : Node)
    (hfresh : ∀ x ∈ h, x.1 ≠ n) :
    lookupHeap (h ++ [(n, nd)]) n = some nd := by
  rw [lookupHeap_append]
  cases hl : lookupHeap h n with
  | some x => exact absurd rfl (hfresh _ (lookupHeap_mem hl))
  | none => simp [lookupHeap_cons]

theorem map_fst_setNext (h : Heap) (b : Addr) (v : MarkedPtr) :
    (setNextHeap h b v).map Prod.fst = h.map Prod.fst := by
  unfold setNextHeap
  rw [List.map_map]
  apply List.map_congr_left
  intro x _
  by_cases hx : x.1 = b <;> simp [hx]

theorem map_fst_setValue (h : Heap) (b : Addr) (v : Nat) :
    (setValueHeap h b v).map Prod.fst = h.map Prod.fst := by
  unfold setValueHeap
  rw [List.map_map]
  apply List.map_congr_left
  intro x _
  by_cases hx : x.1 = b <;> simp [hx]

theorem mem_setNext {h : Heap} {b : Addr} {v : MarkedPtr} {x : Addr × Node}
    (hx : x ∈ setNextHeap h b v) : ∃ y ∈ h, x.1 = y.1 := by
  unfold setNextHeap at hx
  obtain ⟨y, hy, hxy⟩ := List.mem_map.mp hx
  refine ⟨y, hy, ?_⟩
  by_cases hb : y.1 = b <;> simp [hb] at hxy <;> simp [← hxy, hb]

theorem removeAddr_sublist (h : Heap) (a : Addr) : (removeAddr h a).Sublist h :=
  List.filter_sublist h

theorem length_setNext (h : Heap) (b : Addr) (v : MarkedPtr) :
    (setNextHeap h b v).length = h.length := by
  simp [setNextHeap]

theorem removeAddr_of_fresh {h : Heap} {n : Addr} (hfresh : ∀ x ∈ h, x.1 ≠ n) :
    removeAddr h n = h := by
  unfold removeAddr
  apply List.filter_eq_self.mpr
  intro x hx
  simpa using hfresh x hx

theorem removeAddr_append_fresh {h : Heap} {n : Addr} (nd : Node)
    (hfresh : ∀ x ∈ h, x.1 ≠ n) :
    removeAddr (h ++ [(n, nd)]) n = h := by
  unfold removeAddr
  rw [List.filter_append]
  have h1 : h.filter (fun x => x.1 != n) = h := List.filter_eq_self.mpr (by
    intro x hx; simpa using hfresh x hx)
  simp [h1]

/-! ## Chain lemmas -/

theorem isChain_head_addr {h : Heap} {p : MarkedPtr} {l : List (Addr × Node)}
    (hc : IsChain h p l) : p.addr = headAddr l := by
  cases l with
  | nil => simpa [IsChain, headAddr] using hc
  | cons x rest => simpa [headAddr] using hc.1

theorem isChain_nil {h : Heap} {p : MarkedPtr} : IsChain h p [] ↔ p.addr = none :=
  Iff.rfl

theorem isChain_cons {h : Heap} {p : MarkedPtr} {x : Addr × Node} {rest : List (Addr × Node)} :
    IsChain h p (x :: rest) ↔
      p.addr = some x.1 ∧ lookupHeap h x.1 = some x.2 ∧ IsChain h x.2.next rest :=
  Iff.rfl

theorem isChain_lookup {h : Heap} {p : MarkedPtr} {l : List (Addr × Node)}
    (hc : IsChain h p l) : ∀ x ∈ l, lookupHeap h x.1 = some x.2 := by
  induction l generalizing p with
  | nil => intro x hx; cases hx
  | cons y rest ih =>
    intro x hx
    rcases List.mem_cons.mp hx with hx | hx
    · exact hx ▸ hc.2.1
    · exact ih hc.2.2 x hx

theorem isChain_unique {h : Heap} {p : MarkedPtr} {l₁ l₂ : List (Addr × Node)}
    (h₁ : IsChain h p l₁) (h₂ : IsChain h p l₂) : l₁ = l₂ := by
  induction l₁ generalizing p l₂ with
  | nil =>
    cases l₂ with
    | nil => rfl
    | cons y rest =>
      exfalso
      have ha1 : p.addr = none := isChain_nil.mp h₁
      have ha2 : p.addr = some y.1 := (isChain_cons.mp h₂).1
      rw [ha1] at ha2; cases ha2
  | cons x rest ih =>
    cases l₂ with
    | nil =>
      exfalso
      have ha1 : p.addr = some x.1 := (isChain_cons.mp h₁).1
      have ha2 : p.addr = none := isChain_nil.mp h₂
      rw [ha2] at ha1; cases ha1
    | cons y rest₂ =>
      obtain ⟨ha1, hl1, hc1⟩ := isChain_cons.mp h₁
      obtain ⟨ha2, hl2, hc2⟩ := isChain_cons.mp h₂
      have haddr : x.1 = y.1 := Option.some.inj (ha1.symm.trans ha2)
      rw [haddr] at hl1
      have hnode : x.2 = y.2 := Option.some.inj (hl1.symm.trans hl2)
      have hxy : x = y := Prod.ext haddr hnode
      rw [hnode] at hc1
      rw [hxy, ih hc1 hc2]

theorem isChain_congr {h h' : Heap} {p : MarkedPtr} {l : List (Addr × Node)}
    (hc : IsChain h p l) (hl : ∀ x ∈ l, lookupHeap h' x.1 = some x.2) :
    IsChain h' p l := by
  induction l generalizing p with
  | nil => exact hc
  | cons x rest ih =>
    exact ⟨hc.1, hl x (by simp), ih hc.2.2 (fun y hy => hl y (by simp [hy]))⟩

theorem linkPtr_nil (p : MarkedPtr) : linkPtr p [] = p := rfl

theorem linkPtr_cons (p : MarkedPtr) (x : Addr × Node) (lo : List (Addr × Node)) :
    linkPtr p (x :: lo) = linkPtr x.2.next lo := by
  cases lo with
  | nil => rfl
  | cons y t =>
    cases hgl : (y :: t).getLast? with
    | none => simp at hgl
    | some z => simp [linkPtr, List.getLast?_cons_cons, hgl]

theorem linkPtr_concat (p : MarkedPtr) (lo : List (Addr × Node)) (x : Addr × Node) :
    linkPtr p (lo ++ [x]) = x.2.next := by
  simp [linkPtr, List.getLast?_concat]

theorem posRef_nil (i : Nat) : posRef i [] = Ref.bucket i := rfl

theorem posRef_concat (i : Nat) (lo : List (Addr × Node)) (x : Addr × Node) :
    posRef i (lo ++ [x]) = Ref.node x.1 := by
  simp [posRef, List.getLast?_concat]

theorem posSave_nil : posSave [] = none := rfl

theorem posSave_concat (lo : List (Addr × Node)) (x : Addr × Node) :
    posSave (lo ++ [x]) = some x.1 := by
  simp [posSave, List.getLast?_concat]

theorem isChain_append_right {h : Heap} {p : MarkedPtr} {lo hi : List (Addr × Node)}
    (hc : IsChain h p (lo ++ hi)) : IsChain h (linkPtr p lo) hi := by
  induction lo generalizing p with
  | nil => exact hc
  | cons x t ih =>
    rw [linkPtr_cons]
    exact ih hc.2.2

theorem mem_of_getLast?_eq {α : Type} {l : List α} {a : α} (h : l.getLast? = some a) :
    a ∈ l := by
  have h1 : a ∈ l.getLast? := by rw [h]; rfl
  obtain ⟨hne, heq⟩ := List.mem_getLast?_eq_getLast h1
  rw [heq]; exact List.getLast_mem hne

theorem markedPtr_ext {p q : MarkedPtr} (h1 : p.addr = q.addr) (h2 : p.mark = q.mark) :
    p = q := by
  cases p; cases q; simp_all

theorem headAddr_nil : headAddr [] = none := rfl

theorem headAddr_cons (x : Addr × Node) (t : List (Addr × Node)) :
    headAddr (x :: t) = some x.1 := rfl

theorem keysOf_nil : keysOf [] = [] := rfl

theorem keysOf_cons (x : Addr × Node) (t : List (Addr × Node)) :
    keysOf (x :: t) = x.2.key :: keysOf t := rfl

theorem keysOf_append (l₁ l₂ : List (Addr × Node)) :
    keysOf (l₁ ++ l₂) = keysOf l₁ ++ keysOf l₂ :=
  List.map_append _ l₁ l₂

theorem setLastNext_cons₂ (x y : Addr × Node) (t : List (Addr × Node)) (v : MarkedPtr) :
    setLastNext (x :: y :: t) v = x :: setLastNext (y :: t) v := rfl

theorem keysOf_setLastNext (l : List (Addr × Node)) (v : MarkedPtr) :
    keysOf (setLastNext l v) = keysOf l := by
  induction l with
  | nil => rfl
  | cons x t ih =>
    cases t with
    | nil => rfl
    | cons y s => rw [setLastNext_cons₂, keysOf_cons, keysOf_cons, ih]

theorem map_fst_setLastNext (l : List (Addr × Node)) (v : MarkedPtr) :
    (setLastNext l v).map Prod.fst = l.map Prod.fst := by
  induction l with
  | nil => rfl
  | cons x t ih =>
    cases t with
    | nil => rfl
    | cons y s => rw [setLastNext_cons₂, List.map_cons, List.map_cons, ih]

theorem setLastNext_mem {l : List (Addr × Node)} {v : MarkedPtr} {x : Addr × Node}
    (hx : x ∈ setLastNext l v) :
    ∃ y ∈ l, x.1 = y.1 ∧ x.2.key = y.2.key ∧ x.2.value = y.2.value ∧
      (x.2.next = y.2.next ∨ x.2.next = v) := by
  induction l with
  | nil => cases hx
  | cons z t ih =>
    cases t with
    | nil =>
      rcases List.mem_cons.mp hx with hx | hx
      · exact ⟨z, by simp, by rw [hx], by rw [hx], by rw [hx], Or.inr (by rw [hx])⟩
      · cases hx
    | cons y s =>
      rw [setLastNext_cons₂] at hx
      rcases List.mem_cons.mp hx with hx | hx
      · exact ⟨z, by simp, by rw [hx], by rw [hx], by rw [hx], Or.inl (by rw [hx])⟩
      · obtain ⟨w, hw, hrest⟩ := ih hx
        exact ⟨w, List.mem_cons_of_mem z hw, hrest⟩

theorem readRef_bucket {m : HMap} {i : Nat} (hi : i < m.buckets.length) :
    readRef m (Ref.bucket i) = some (bucketHead m i) := by
  unfold readRef bucketHead
  rw [List.getD_eq_getElem _ _ hi]
  exact List.getElem?_eq_getElem hi

theorem readRef_posRef {m : HMap} {i : Nat} {lo hi : List (Addr × Node)}
    (hch : IsChain m.heap (bucketHead m i) (lo ++ hi)) (hlt : i < m.buckets.length) :
    readRef m (posRef i lo) = some (linkPtr (bucketHead m i) lo) := by
  cases hgl : lo.getLast? with
  | none =>
    unfold posRef linkPtr
    rw [hgl]
    exact readRef_bucket hlt
  | some x =>
    unfold posRef linkPtr
    rw [hgl]
    have hx : x ∈ lo ++ hi := List.mem_append_left hi (mem_of_getLast?_eq hgl)
    have := isChain_lookup hch x hx
    simp [readRef, this]

theorem linkPtr_good {hash : Nat → Nat} {m : HMap} {i : Nat} {lo hi : List (Addr × Node)}
    (hg : GoodChain hash m i (lo ++ hi)) :
    linkPtr (bucketHead m i) lo = ⟨headAddr hi, false⟩ := by
  apply markedPtr_ext
  · exact isChain_head_addr (isChain_append_right hg.1)
  · cases hgl : lo.getLast? with
    | none => unfold linkPtr; rw [hgl]; exact hg.2.1
    | some x =>
      unfold linkPtr; rw [hgl]
      have hx : x ∈ lo ++ hi := List.mem_append_left hi (mem_of_getLast?_eq hgl)
      exact (hg.2.2.2 x hx).1

theorem chain_mem_heap {h : Heap} {p : MarkedPtr} {l : List (Addr × Node)}
    (hc : IsChain h p l) : ∀ x ∈ l, x ∈ h := by
  intro x hx
  have := lookupHeap_mem (isChain_lookup hc x hx)
  simpa using this

theorem goodChain_keys_nodup {hash : Nat → Nat} {m : HMap} {i : Nat}
    {l : List (Addr × Node)} (hg : GoodChain hash m i l) : (keysOf l).Nodup :=
  hg.2.2.1.imp (fun h => Nat.ne_of_lt h)

theorem goodChain_nodup {hash : Nat → Nat} {m : HMap} {i : Nat}
    {l : List (Addr × Node)} (hg : GoodChain hash m i l) : l.Nodup :=
  (goodChain_keys_nodup hg).of_map

theorem chain_fst_inj {h : Heap} {p : MarkedPtr} {l : List (Addr × Node)}
    (hc : IsChain h p l) : ∀ x ∈ l, ∀ y ∈ l, x.1 = y.1 → x = y := by
  intro x hx y hy hxy
  have h1 := isChain_lookup hc x hx
  have h2 := isChain_lookup hc y hy
  rw [hxy] at h1
  exact Prod.ext hxy (Option.some.inj (h1.symm.trans h2))

theorem goodChain_fst_nodup {hash : Nat → Nat} {m : HMap} {i : Nat}
    {l : List (Addr × Node)} (hg : GoodChain hash m i l) :
    (l.map Prod.fst).Nodup :=
  (goodChain_nodup hg).map_on (chain_fst_inj hg.1)

theorem goodChain_length_le {hash : Nat → Nat} {m : HMap} {i : Nat}
    {l : List (Addr × Node)} (hg : GoodChain hash m i l) :
    l.length ≤ m.heap.length :=
  (List.subperm_of_subset (goodChain_nodup hg) (chain_mem_heap hg.1)).length_le

theorem chain_addr_lt {m : HMap} {p : MarkedPtr}
    {l : List (Addr × Node)} (hc : IsChain m.heap p l)
    (hbound : ∀ x ∈ m.heap, x.1 < m.nextAddr) : ∀ x ∈ l, x.1 < m.nextAddr :=
  fun x hx => hbound x (chain_mem_heap hc x hx)

theorem isChain_relink {h h' : Heap} {v : MarkedPtr} {hi₂ : List (Addr × Node)}
    (hcont : IsChain h' v hi₂) {lo : List (Addr × Node)} :
    ∀ {p : MarkedPtr} {hi : List (Addr × Node)},
      IsChain h p (lo ++ hi) →
      (lo.map Prod.fst).Nodup →
      (∀ x ∈ lo, lookupHeap h' x.1 =
        some (if lo.getLast?.map (·.1) = some x.1 then { x.2 with next := v } else x.2)) →
      IsChain h' (if lo.isEmpty then v else p) (setLastNext lo v ++ hi₂) := by
  induction lo with
  | nil =>
    intro p hi _ _ _
    simpa [setLastNext] using hcont
  | cons x t ih =>
    intro p hi hc hnd hlk
    obtain ⟨ha, _, hcrest⟩ := isChain_cons.mp hc
    cases t with
    | nil =>
      have hx : lookupHeap h' x.1 = some { x.2 with next := v } := by
        have := hlk x (by simp)
        simpa using this
      exact isChain_cons.mpr ⟨ha, hx, hcont⟩
    | cons y s =>
      have hlast : (x :: y :: s).getLast? = (y :: s).getLast? := List.getLast?_cons_cons
      have hx : lookupHeap h' x.1 = some x.2 := by
        have hm := hlk x (by simp)
        cases hgl : (y :: s).getLast? with
        | none => simp at hgl
        | some z =>
          have hz : z ∈ y :: s := mem_of_getLast?_eq hgl
          have hzx : ¬z.1 = x.1 := by
            intro hzx
            have : x.1 ∈ (y :: s).map Prod.fst := by
              rw [← hzx]; exact List.mem_map_of_mem Prod.fst hz
            exact (List.nodup_cons.mp hnd).1 this
          rw [hlast, hgl] at hm
          simpa [hzx] using hm
      have ihx := ih hcrest (List.nodup_cons.mp hnd).2 (fun z hz => by
        have := hlk z (List.mem_cons_of_mem x hz)
        rwa [hlast] at this)
      rw [setLastNext_cons₂, List.cons_append]
      refine isChain_cons.mpr ⟨ha, hx, ?_⟩
      simpa using ihx

/-! ## The kernel specification -/

theorem findGo_walk_spec {hash : Nat → Nat} {m : HMap} {i : Nat} (key : Nat)
    {l0 : List (Addr × Node)} (hg : GoodChain hash m i l0) (hlt : i < m.buckets.length) :
    ∀ (rest lo : List (Addr × Node)) (start : Ref) (sg : Option Addr) (fuel : Nat),
      l0 = lo ++ rest → (∀ x ∈ lo, x.2.key < key) → rest.length < fuel →
      ∃ skip rest', rest = skip ++ rest' ∧ (∀ x ∈ skip, x.2.key < key) ∧
        (∀ y, rest'.head? = some y → key ≤ y.2.key) ∧
        findGo key i m
            (FindState.walk start sg (posRef i lo) ⟨headAddr rest, false⟩ (posSave lo)) fuel
          = some (foundIn rest' key,
              ⟨some (posRef i (lo ++ skip)), nextOf rest', headAddr rest', posSave (lo ++ skip)⟩,
              m) := by
  intro rest
  induction rest with
  | nil =>
    intro lo start sg fuel hsplit hlo hfuel
    subst hsplit
    refine ⟨[], [], by simp, by simp, by simp, ?_⟩
    obtain ⟨f, rfl⟩ : ∃ f, fuel = f + 1 := ⟨fuel - 1, by omega⟩
    have hread : readRef m (posRef i lo) = some (linkPtr (bucketHead m i) lo) :=
      readRef_posRef hg.1 hlt
    have hlink : linkPtr (bucketHead m i) lo = ⟨headAddr ([] : List (Addr × Node)), false⟩ :=
      linkPtr_good hg
    rw [hlink] at hread
    simp [findGo, hread, headAddr_nil, foundIn, nextOf, MarkedPtr.null]
  | cons x tl ih =>
    intro lo start sg fuel hsplit hlo hfuel
    subst hsplit
    obtain ⟨f, rfl⟩ : ∃ f, fuel = f + 1 := ⟨fuel - 1, by omega⟩
    have hread : readRef m (posRef i lo) = some (linkPtr (bucketHead m i) lo) :=
      readRef_posRef hg.1 hlt
    have hlink : linkPtr (bucketHead m i) lo = ⟨headAddr (x :: tl), false⟩ :=
      linkPtr_good hg
    rw [hlink] at hread
    have hxl : x ∈ lo ++ x :: tl := by simp
    have hlkx : lookupHeap m.heap x.1 = some x.2 := isChain_lookup hg.1 x hxl
    have hmark : x.2.next.mark = false := (hg.2.2.2 x hxl).1
    by_cases hkey : key ≤ x.2.key
    · refine ⟨[], x :: tl, by simp, by simp, ?_, ?_⟩
      · intro y hy
        rw [List.head?_cons] at hy
        cases hy
        exact hkey
      · simp [findGo, hread, headAddr_cons, hlkx, hmark, hkey, foundIn, nextOf]
    · push_neg at hkey
      have hassoc : lo ++ x :: tl = (lo ++ [x]) ++ tl := by simp
      have hx2 : x.2.next = ⟨headAddr tl, false⟩ := by
        apply markedPtr_ext
        · have hch : IsChain m.heap (bucketHead m i) ((lo ++ [x]) ++ tl) := by
            rw [← hassoc]; exact hg.1
          have := isChain_head_addr (isChain_append_right hch)
          rwa [linkPtr_concat] at this
        · exact hmark
      have hstep :
          findGo key i m
              (FindState.walk start sg (posRef i lo) ⟨headAddr (x :: tl), false⟩ (posSave lo))
              (f + 1)
            = findGo key i m
                (FindState.walk start sg (Ref.node x.1) x.2.next (some x.1)) f := by
        simp [findGo, hread, headAddr_cons, hlkx, hmark, not_le.mpr hkey]
      obtain ⟨skip', rest', hsp, hskiplt, hbound, hcomp⟩ :=
        ih (lo ++ [x]) start sg f (by simp)
          (by
            intro z hz
            rcases List.mem_append.mp hz with hz | hz
            · exact hlo z hz
            · rw [List.mem_singleton.mp hz]; exact hkey)
          (by simpa using Nat.lt_of_succ_lt_succ hfuel)
      rw [posRef_concat, posSave_concat, ← hx2] at hcomp
      refine ⟨x :: skip', rest', by simp [hsp], ?_, hbound, ?_⟩
      · intro z hz
        rcases List.mem_cons.mp hz with hz | hz
        · rw [hz]; exact hkey
        · exact hskiplt z hz
      · rw [hstep, hcomp]
        have h1 : (lo ++ [x]) ++ skip' = lo ++ x :: skip' := by simp
        rw [h1]

theorem find_head_spec {hash : Nat → Nat} {m : HMap} {i : Nat} (key : Nat)
    {l0 : List (Addr × Node)} (hg : GoodChain hash m i l0) (hlt : i < m.buckets.length)
    {fuel : Nat} (hfuel : l0.length + 2 ≤ fuel) :
    ∃ lo hi, l0 = lo ++ hi ∧ (∀ x ∈ lo, x.2.key < key) ∧
      (∀ y, hi.head? = some y → key ≤ y.2.key) ∧
      find key i m (headInfo i) fuel
        = some (foundIn hi key,
            ⟨some (posRef i lo), nextOf hi, headAddr hi, posSave lo⟩, m) := by
  obtain ⟨f, rfl⟩ : ∃ f, fuel = f + 1 := ⟨fuel - 1, by omega⟩
  have hread : readRef m (Ref.bucket i) = some (bucketHead m i) := readRef_bucket hlt
  have hmark : (bucketHead m i).mark = false := hg.2.1
  have hhd : bucketHead m i = ⟨headAddr l0, false⟩ := by
    have hg0 : GoodChain hash m i ([] ++ l0) := by simpa using hg
    have := linkPtr_good hg0
    simpa [linkPtr_nil] using this
  obtain ⟨skip, rest', hsp, hskiplt, hbound, hcomp⟩ :=
    findGo_walk_spec key hg hlt l0 [] (Ref.bucket i) none f (by simp) (by simp)
      (by omega)
  refine ⟨skip, rest', hsp, hskiplt, hbound, ?_⟩
  unfold find headInfo
  simp only [findGo, hread, hmark, Bool.false_eq_true, if_neg (by simp : ¬False)]
  rw [show (posRef i [] : Ref) = Ref.bucket i from rfl] at hcomp
  rw [show (posSave [] : Option Addr) = none from rfl] at hcomp
  rw [hhd]
  simpa using hcomp

theorem foundIn_iff_mem {key : Nat} {lo hi : List (Addr × Node)}
    (hpw : List.Pairwise (· < ·) (keysOf (lo ++ hi)))
    (hlo : ∀ x ∈ lo, x.2.key < key)
    (hbound : ∀ y, hi.head? = some y → key ≤ y.2.key) :
    foundIn hi key = true ↔ key ∈ keysOf (lo ++ hi) := by
  constructor
  · intro hf
    cases hi with
    | nil => simp [foundIn] at hf
    | cons y tl =>
      have : y.2.key = key := by simpa [foundIn] using hf
      rw [keysOf_append]
      exact List.mem_append_right _ (by simp [keysOf_cons, this])
  · intro hmem
    rw [keysOf_append] at hmem
    rcases List.mem_append.mp hmem with hmem | hmem
    · obtain ⟨x, hx, hxk⟩ := List.mem_map.mp hmem
      exact absurd (hxk ▸ hlo x hx) (lt_irrefl key)
    · cases hi with
      | nil => simp [keysOf] at hmem
      | cons y tl =>
        rcases List.mem_cons.mp hmem with hmem | hmem
        · simp [foundIn, hmem.symm]
        · exfalso
          rw [keysOf_append] at hpw
          have hylt : ∀ k ∈ keysOf tl, y.2.key < k := by
            have := (List.pairwise_append.mp hpw).2.1
            rw [keysOf_cons] at this
            exact fun k hk => (List.pairwise_cons.mp this).1 k hk
          have h1 : y.2.key < key := hylt key (by simpa [keysOf] using hmem)
          have h2 : key ≤ y.2.key := hbound y (by simp)
          omega

/-! ## State-update transport lemmas -/

theorem isChain_of_addr_eq {h : Heap} {p q : MarkedPtr} {l : List (Addr × Node)}
    (hc : IsChain h p l) (hpq : q.addr = p.addr) : IsChain h q l := by
  cases l with
  | nil => rw [isChain_nil, hpq]; exact hc
  | cons x t => exact isChain_cons.mpr ⟨hpq.trans hc.1, hc.2.1, hc.2.2⟩

theorem keyLive_iff_keys {hash : Nat → Nat} {m : HMap} {k : Nat} {l : List (Addr × Node)}
    (hg : GoodChain hash m (hash k % m.buckets.length) l) :
    KeyLive hash m k ↔ k ∈ keysOf l := by
  constructor
  · rintro ⟨l', x, hch', hx, hk⟩
    rw [isChain_unique hch' hg.1] at hx
    exact hk ▸ List.mem_map_of_mem (·.2.key) hx
  · intro hk
    obtain ⟨x, hx, hxk⟩ := List.mem_map.mp hk
    exact ⟨l, x, hg.1, hx, hxk⟩

theorem goodChain_congr {hash : Nat → Nat} {m m' : HMap} {i : Nat}
    {l : List (Addr × Node)} (hg : GoodChain hash m i l)
    (hhead : bucketHead m' i = bucketHead m i)
    (hlen : m'.buckets.length = m.buckets.length)
    (hlk : ∀ x ∈ l, lookupHeap m'.heap x.1 = some x.2) :
    GoodChain hash m' i l := by
  refine ⟨?_, ?_, hg.2.2.1, ?_⟩
  · rw [hhead]; exact isChain_congr hg.1 hlk
  · rw [hhead]; exact hg.2.1
  · intro x hx
    rw [hlen]
    exact hg.2.2.2 x hx

theorem chains_disjoint {hash : Nat → Nat} {m : HMap} {i j : Nat}
    {li lj : List (Addr × Node)} (hgi : GoodChain hash m i li)
    (hgj : GoodChain hash m j lj) (hne : i ≠ j) :
    ∀ a, a ∈ li.map Prod.fst → a ∉ lj.map Prod.fst := by
  intro a hai haj
  obtain ⟨xi, hxi, hxi1⟩ := List.mem_map.mp hai
  obtain ⟨xj, hxj, hxj1⟩ := List.mem_map.mp haj
  have h1 := isChain_lookup hgi.1 xi hxi
  have h2 := isChain_lookup hgj.1 xj hxj
  rw [hxi1] at h1
  rw [hxj1] at h2
  have hnd : xi.2 = xj.2 := Option.some.inj (h1.symm.trans h2)
  have hhi := (hgi.2.2.2 xi hxi).2
  have hhj := (hgj.2.2.2 xj hxj).2
  rw [hnd] at hhi
  exact hne (hhi.symm.trans hhj)

theorem allocNode_heap (m : HMap) (key v : Nat) :
    (allocNode m key v).2.heap = m.heap ++ [(m.nextAddr, ⟨key, v, MarkedPtr.null⟩)] := rfl

theorem lookupHeap_alloc_lt {m : HMap} (key v : Nat) {a : Addr} (ha : a ≠ m.nextAddr) :
    lookupHeap (allocNode m key v).2.heap a = lookupHeap m.heap a := by
  rw [allocNode_heap]
  exact lookupHeap_append_ne _ ha

theorem lookupHeap_alloc_self {m : HMap} (key v : Nat)
    (hbound : ∀ x ∈ m.heap, x.1 < m.nextAddr) :
    lookupHeap (allocNode m key v).2.heap m.nextAddr = some ⟨key, v, MarkedPtr.null⟩ := by
  rw [allocNode_heap]
  exact lookupHeap_append_self _ (fun x hx => Nat.ne_of_lt (hbound x hx))

theorem goodChain_alloc {hash : Nat → Nat} {m : HMap} {i : Nat} {l : List (Addr × Node)}
    (key v : Nat) (hg : GoodChain hash m i l)
    (hbound : ∀ x ∈ m.heap, x.1 < m.nextAddr) :
    GoodChain hash (allocNode m key v).2 i l := by
  refine goodChain_congr hg rfl rfl ?_
  intro x hx
  rw [lookupHeap_alloc_lt key v (Nat.ne_of_lt (hbound x (chain_mem_heap hg.1 x hx)))]
  exact isChain_lookup hg.1 x hx

theorem alloc_nodup {m : HMap} (key v : Nat)
    (hnodup : (m.heap.map Prod.fst).Nodup) (hbound : ∀ x ∈ m.heap, x.1 < m.nextAddr) :
    ((allocNode m key v).2.heap.map Prod.fst).Nodup := by
  rw [allocNode_heap, List.map_append]
  rw [List.nodup_append]
  refine ⟨hnodup, by simp, ?_⟩
  intro a ha hb
  simp only [List.map_cons, List.map_nil, List.mem_singleton] at hb
  obtain ⟨x, hx, hxa⟩ := List.mem_map.mp ha
  exact absurd (hxa ▸ hb ▸ hbound x hx) (lt_irrefl _)

theorem alloc_bound {m : HMap} (key v : Nat)
    (hbound : ∀ x ∈ m.heap, x.1 < m.nextAddr) :
    ∀ x ∈ (allocNode m key v).2.heap, x.1 < (allocNode m key v).2.nextAddr := by
  intro x hx
  rw [allocNode_heap] at hx
  rcases List.mem_append.mp hx with hx | hx
  · exact Nat.lt_succ_of_lt (hbound x hx)
  · simp only [List.mem_singleton] at hx
    rw [hx]
    exact Nat.lt_succ_self _

theorem keyLive_alloc_iff {hash : Nat → Nat} {m : HMap} (key v k : Nat)
    (hB : 0 < m.buckets.length)
    (hbound : ∀ x ∈ m.heap, x.1 < m.nextAddr)
    (hchains : ∀ j, j < m.buckets.length → ∃ l, GoodChain hash m j l) :
    (KeyLive hash (allocNode m key v).2 k ↔ KeyLive hash m k) := by
  obtain ⟨l, hl⟩ := hchains (hash k % m.buckets.length) (Nat.mod_lt _ hB)
  have hl' : GoodChain hash (allocNode m key v).2 (hash k % m.buckets.length) l :=
    goodChain_alloc key v hl hbound
  have e1 := keyLive_iff_keys (m := (allocNode m key v).2) (k := k) (by simpa using hl')
  have e2 := keyLive_iff_keys (m := m) (k := k) hl
  rw [e1, e2]

theorem bucketHead_set_ne {m : HMap} {i j : Nat} (v : MarkedPtr) (hne : j ≠ i) :
    bucketHead (writeRef m (Ref.bucket i) v) j = bucketHead m j := by
  unfold bucketHead writeRef
  simp only
  rw [List.getD_eq_getElem?_getD, List.getD_eq_getElem?_getD, List.getElem?_set_ne hne.symm]

theorem bucketHead_set_self {m : HMap} {i : Nat} (v : MarkedPtr)
    (hilt : i < m.buckets.length) :
    bucketHead (writeRef m (Ref.bucket i) v) i = v := by
  unfold bucketHead writeRef
  simp only
  rw [List.getD_eq_getElem?_getD, List.getElem?_set_self', List.getElem?_eq_getElem hilt]
  rfl

theorem write_pos_spec {m : HMap} {i : Nat} {lo hi : List (Addr × Node)} (v : MarkedPtr)
    (hilt : i < m.buckets.length)
    (hch : IsChain m.heap (bucketHead m i) (lo ++ hi))
    (hfst : ((lo ++ hi).map Prod.fst).Nodup) :
    (writeRef m (posRef i lo) v).nextAddr = m.nextAddr ∧
    (writeRef m (posRef i lo) v).buckets.length = m.buckets.length ∧
    (writeRef m (posRef i lo) v).heap.map Prod.fst = m.heap.map Prod.fst ∧
    (∀ j, j ≠ i → bucketHead (writeRef m (posRef i lo) v) j = bucketHead m j) ∧
    (∀ a, (∀ xl, lo.getLast? = some xl → xl.1 ≠ a) →
      lookupHeap (writeRef m (posRef i lo) v).heap a = lookupHeap m.heap a) ∧
    (∀ xl, lo.getLast? = some xl →
      lookupHeap (writeRef m (posRef i lo) v).heap xl.1 =
        (lookupHeap m.heap xl.1).map (fun nd => { nd with next := v })) ∧
    (bucketHead (writeRef m (posRef i lo) v) i = v ∨
      bucketHead (writeRef m (posRef i lo) v) i = bucketHead m i) ∧
    (∀ hi₂, IsChain (writeRef m (posRef i lo) v).heap v hi₂ →
      IsChain (writeRef m (posRef i lo) v).heap
        (bucketHead (writeRef m (posRef i lo) v) i) (setLastNext lo v ++ hi₂)) := by
  cases hgl : lo.getLast? with
  | none =>
    have hlo0 : lo = [] := List.getLast?_eq_none_iff.mp hgl
    subst hlo0
    have hpos : posRef i ([] : List (Addr × Node)) = Ref.bucket i := rfl
    rw [hpos]
    refine ⟨rfl, by simp [writeRef], rfl, ?_, ?_, ?_, Or.inl (bucketHead_set_self v hilt), ?_⟩
    · intro j hj; exact bucketHead_set_ne v hj
    · intro a _; rfl
    · intro xl hxl; cases hxl
    · intro hi₂ hcont
      rw [bucketHead_set_self v hilt]
      simpa [setLastNext] using hcont
  | some xl =>
    have hne : lo ≠ [] := by
      intro h0; rw [h0] at hgl; cases hgl
    have hpos : posRef i lo = Ref.node xl.1 := by
      unfold posRef; rw [hgl]
    rw [hpos]
    have hheap : (writeRef m (Ref.node xl.1) v).heap = setNextHeap m.heap xl.1 v := rfl
    refine ⟨rfl, rfl, by rw [hheap]; exact map_fst_setNext _ _ _, ?_, ?_, ?_, Or.inr rfl, ?_⟩
    · intro j _; rfl
    · intro a ha
      rw [hheap, lookupHeap_setNext, if_neg (fun h => ha xl rfl h.symm)]
    · intro xl' hxl'
      cases hxl'
      rw [hheap, lookupHeap_setNext, if_pos rfl]
    · intro hi₂ hcont
      have hnodup_lo : (lo.map Prod.fst).Nodup := by
        rw [List.map_append, List.nodup_append] at hfst
        exact hfst.1
      have hlk : ∀ x ∈ lo, lookupHeap (writeRef m (Ref.node xl.1) v).heap x.1 =
          some (if lo.getLast?.map (·.1) = some x.1 then { x.2 with next := v } else x.2) := by
        intro x hx
        have hlx : lookupHeap m.heap x.1 = some x.2 :=
          isChain_lookup hch x (List.mem_append_left hi hx)
        by_cases hxx : xl.1 = x.1
        · rw [hheap, lookupHeap_setNext, if_pos hxx.symm, hlx]
          rw [hgl]; simp [hxx]
        · rw [hheap, lookupHeap_setNext, if_neg (fun h => hxx h.symm), hlx]
          rw [hgl]; simp [hxx]
      have hrel := isChain_relink hcont hch hnodup_lo hlk
      have hemp : lo.isEmpty = false := by
        cases lo with
        | nil => exact absurd rfl hne
        | cons z t => rfl
      rw [hemp] at hrel
      simpa using hrel

theorem install_spec {hash : Nat → Nat} {m : HMap} {key v : Nat} {i n : Nat} {w : MarkedPtr}
    {lo hi : List (Addr × Node)}
    (hB : 0 < m.buckets.length)
    (hilt : i < m.buckets.length)
    (hkb : hash key % m.buckets.length = i)
    (hnodup : (m.heap.map Prod.fst).Nodup)
    (hbound : ∀ x ∈ m.heap, x.1 < m.nextAddr)
    (hg : GoodChain hash m i (lo ++ hi))
    (hlo : ∀ x ∈ lo, x.2.key < key)
    (hhi : ∀ y, hi.head? = some y → key < y.2.key)
    (hn : lookupHeap m.heap n = some ⟨key, v, w⟩)
    (hnchain : n ∉ (lo ++ hi).map Prod.fst)
    (hothers : ∀ j, j < m.buckets.length → j ≠ i →
      ∃ lj, GoodChain hash m j lj ∧ n ∉ lj.map Prod.fst) :
    ∀ m2 m3, m2 = { m with heap := setNextHeap m.heap n ⟨headAddr hi, false⟩ } →
      m3 = writeRef m2 (posRef i lo) ⟨some n, false⟩ →
      readRef m2 (posRef i lo) = some ⟨headAddr hi, false⟩ ∧
      GoodChain hash m3 i
        (setLastNext lo ⟨some n, false⟩ ++ (n, ⟨key, v, ⟨headAddr hi, false⟩⟩) :: hi) ∧
      Inv hash m3 ∧
      lookupHeap m3.heap n = some ⟨key, v, ⟨headAddr hi, false⟩⟩ ∧
      (∀ j, j ≠ i → bucketHead m3 j = bucketHead m j) ∧
      m3.buckets.length = m.buckets.length ∧
      m3.nextAddr = m.nextAddr ∧
      (∀ k, KeyLive hash m3 k ↔ (k = key ∨ KeyLive hash m k)) ∧
      (∀ a nd0 nd1, lookupHeap m.heap a = some nd0 → lookupHeap m3.heap a = some nd1 →
        nd1.key = nd0.key ∧ nd1.value = nd0.value) := by
  intro m2 m3 hm2 hm3
  have hm2buckets : m2.buckets = m.buckets := by rw [hm2]
  have hm2next : m2.nextAddr = m.nextAddr := by rw [hm2]
  have hm2heap : m2.heap = setNextHeap m.heap n ⟨headAddr hi, false⟩ := by rw [hm2]
  have hm2head : ∀ j, bucketHead m2 j = bucketHead m j := by
    intro j; unfold bucketHead; rw [hm2buckets]
  have hm2fst : m2.heap.map Prod.fst = m.heap.map Prod.fst := by
    rw [hm2heap]; exact map_fst_setNext _ _ _
  have hm2lk_ne : ∀ a, a ≠ n → lookupHeap m2.heap a = lookupHeap m.heap a := by
    intro a ha
    rw [hm2heap, lookupHeap_setNext, if_neg ha]
  have hm2n : lookupHeap m2.heap n = some ⟨key, v, ⟨headAddr hi, false⟩⟩ := by
    rw [hm2heap, lookupHeap_setNext, if_pos rfl, hn]
    rfl
  have hfstchain : ((lo ++ hi).map Prod.fst).Nodup := goodChain_fst_nodup hg
  have hchain_ne_n : ∀ x ∈ lo ++ hi, x.1 ≠ n := by
    intro x hx hxn
    exact hnchain (hxn ▸ List.mem_map_of_mem Prod.fst hx)
  have hch2 : IsChain m2.heap (bucketHead m2 i) (lo ++ hi) := by
    rw [hm2head]
    exact isChain_congr hg.1 (fun x hx => by
      rw [hm2lk_ne x.1 (hchain_ne_n x hx)]; exact isChain_lookup hg.1 x hx)
  have hilt2 : i < m2.buckets.length := by rw [hm2buckets]; exact hilt
  obtain ⟨hw_next, hw_blen, hw_fst, hw_bhead, hw_pres, hw_last, hw_hv, hw_chain⟩ :=
    write_pos_spec (⟨some n, false⟩ : MarkedPtr) hilt2 hch2 hfstchain
  rw [← hm3] at hw_next hw_blen hw_fst hw_bhead hw_pres hw_last hw_hv hw_chain
  have hlen3 : m3.buckets.length = m.buckets.length := hw_blen.trans (by rw [hm2buckets])
  have hnext3 : m3.nextAddr = m.nextAddr := hw_next.trans hm2next
  have hbhead3 : ∀ j, j ≠ i → bucketHead m3 j = bucketHead m j :=
    fun j hj => (hw_bhead j hj).trans (hm2head j)
  have hread : readRef m2 (posRef i lo) = some ⟨headAddr hi, false⟩ := by
    rw [readRef_posRef hch2 hilt2, hm2head i]
    exact congrArg some (linkPtr_good hg)
  have hlast_ne_n : ∀ xl, lo.getLast? = some xl → xl.1 ≠ n :=
    fun xl hxl => hchain_ne_n xl (List.mem_append_left hi (mem_of_getLast?_eq hxl))
  have hm3n : lookupHeap m3.heap n = some ⟨key, v, ⟨headAddr hi, false⟩⟩ := by
    rw [hw_pres n hlast_ne_n]
    exact hm2n
  have hm3pres : ∀ a, a ≠ n → (∀ xl, lo.getLast? = some xl → xl.1 ≠ a) →
      lookupHeap m3.heap a = lookupHeap m.heap a := by
    intro a ha hal
    rw [hw_pres a hal, hm2lk_ne a ha]
  have hhi_m : IsChain m.heap (⟨headAddr hi, false⟩ : MarkedPtr) hi := by
    apply isChain_of_addr_eq (isChain_append_right hg.1)
    rw [linkPtr_good hg]
  have hdisj : (lo.map Prod.fst).Disjoint (hi.map Prod.fst) := by
    rw [List.map_append, List.nodup_append] at hfstchain
    exact hfstchain.2.2
  have hhi_ne_last : ∀ x ∈ hi, ∀ xl, lo.getLast? = some xl → xl.1 ≠ x.1 := by
    intro x hx xl hxl heq
    have h1 : xl.1 ∈ lo.map Prod.fst :=
      List.mem_map_of_mem Prod.fst (mem_of_getLast?_eq hxl)
    have h2 : xl.1 ∈ hi.map Prod.fst := by
      rw [heq]; exact List.mem_map_of_mem Prod.fst hx
    exact hdisj h1 h2
  have hcont : IsChain m3.heap (⟨some n, false⟩ : MarkedPtr)
      ((n, (⟨key, v, ⟨headAddr hi, false⟩⟩ : Node)) :: hi) := by
    refine isChain_cons.mpr ⟨rfl, hm3n, ?_⟩
    show IsChain m3.heap (⟨headAddr hi, false⟩ : MarkedPtr) hi
    apply isChain_congr hhi_m
    intro x hx
    rw [hm3pres x.1 (hchain_ne_n x (List.mem_append_right lo hx)) (hhi_ne_last x hx)]
    exact isChain_lookup hg.1 x (List.mem_append_right lo hx)
  have hchain3 := hw_chain _ hcont
  have hpw := hg.2.2.1
  rw [keysOf_append] at hpw
  obtain ⟨hpw_lo, hpw_hi, hpw_cross⟩ := List.pairwise_append.mp hpw
  have hklt_hi : ∀ k ∈ keysOf hi, key < k := by
    cases hi with
    | nil => intro k hk; cases hk
    | cons y tl =>
      intro k hk
      have hy : key < y.2.key := hhi y rfl
      rcases List.mem_cons.mp (by simpa [keysOf_cons] using hk) with hk | hk
      · rw [hk]; exact hy
      · exact lt_trans hy ((List.pairwise_cons.mp (by simpa [keysOf_cons] using hpw_hi)).1 k hk)
  have hpw3 : List.Pairwise (· < ·)
      (keysOf (setLastNext lo ⟨some n, false⟩ ++
        (n, (⟨key, v, ⟨headAddr hi, false⟩⟩ : Node)) :: hi)) := by
    rw [keysOf_append, keysOf_setLastNext, keysOf_cons]
    rw [List.pairwise_append]
    refine ⟨hpw_lo, ?_, ?_⟩
    · rw [List.pairwise_cons]
      exact ⟨hklt_hi, hpw_hi⟩
    · intro a ha b hb
      obtain ⟨x, hx, hxa⟩ := List.mem_map.mp ha
      have halt : a < key := hxa ▸ hlo x hx
      rcases List.mem_cons.mp hb with hb | hb
      · rw [hb]; exact halt
      · exact lt_trans halt (hklt_hi b hb)
  have hheadmark3 : (bucketHead m3 i).mark = false := by
    rcases hw_hv with hv | hv
    · rw [hv]
    · rw [hv, hm2head i]; exact hg.2.1
  have hmemnew : ∀ x ∈ setLastNext lo ⟨some n, false⟩ ++
      (n, (⟨key, v, ⟨headAddr hi, false⟩⟩ : Node)) :: hi,
      x.2.next.mark = false ∧ hash x.2.key % m3.buckets.length = i := by
    intro x hx
    rw [hlen3]
    rcases List.mem_append.mp hx with hx | hx
    · obtain ⟨y, hy, h1, h2, h3, h4⟩ := setLastNext_mem hx
      have hym := hg.2.2.2 y (List.mem_append_left hi hy)
      refine ⟨?_, by rw [h2]; exact hym.2⟩
      rcases h4 with h4 | h4
      · rw [h4]; exact hym.1
      · rw [h4]
    · rcases List.mem_cons.mp hx with hx | hx
      · rw [hx]; exact ⟨rfl, hkb⟩
      · exact hg.2.2.2 x (List.mem_append_right lo hx)
  have hgood3 : GoodChain hash m3 i
      (setLastNext lo ⟨some n, false⟩ ++
        (n, (⟨key, v, ⟨headAddr hi, false⟩⟩ : Node)) :: hi) :=
    ⟨hchain3, hheadmark3, hpw3, hmemnew⟩
  have htrans : ∀ j, j < m.buckets.length → j ≠ i → ∀ lj, GoodChain hash m j lj →
      n ∉ lj.map Prod.fst → GoodChain hash m3 j lj := by
    intro j hj hji lj hgj hnj
    refine goodChain_congr hgj (hbhead3 j hji) hlen3 ?_
    intro x hx
    have hxn : x.1 ≠ n := fun h => hnj (h ▸ List.mem_map_of_mem Prod.fst hx)
    have hxl : ∀ xl, lo.getLast? = some xl → xl.1 ≠ x.1 := by
      intro xl hxl heq
      have h1 : xl.1 ∈ (lo ++ hi).map Prod.fst :=
        List.mem_map_of_mem Prod.fst (List.mem_append_left hi (mem_of_getLast?_eq hxl))
      exact chains_disjoint hg hgj (fun h => hji h.symm) xl.1 h1
        (by rw [heq]; exact List.mem_map_of_mem Prod.fst hx)
    rw [hm3pres x.1 hxn hxl]
    exact isChain_lookup hgj.1 x hx
  have hInv3 : Inv hash m3 := by
    refine ⟨by rw [hlen3]; exact hB, ?_, ?_, ?_⟩
    · rw [hw_fst, hm2fst]; exact hnodup
    · intro x hx
      have hx1 : x.1 ∈ m3.heap.map Prod.fst := List.mem_map_of_mem Prod.fst hx
      rw [hw_fst, hm2fst] at hx1
      obtain ⟨y, hy, hy1⟩ := List.mem_map.mp hx1
      rw [hnext3, ← hy1]
      exact hbound y hy
    · intro j hj
      rw [hlen3] at hj
      by_cases hji : j = i
      · subst hji; exact ⟨_, hgood3⟩
      · obtain ⟨lj, hgj, hnj⟩ := hothers j hj hji
        exact ⟨lj, htrans j hj hji lj hgj hnj⟩
  have hkiff : ∀ k, KeyLive hash m3 k ↔ (k = key ∨ KeyLive hash m k) := by
    intro k
    have hjk : hash k % m.buckets.length < m.buckets.length := Nat.mod_lt _ hB
    by_cases hki : hash k % m.buckets.length = i
    · have hki3 : hash k % m3.buckets.length = i := by rw [hlen3]; exact hki
      have e3 : KeyLive hash m3 k ↔ k ∈ keysOf (setLastNext lo ⟨some n, false⟩ ++
          (n, (⟨key, v, ⟨headAddr hi, false⟩⟩ : Node)) :: hi) :=
        keyLive_iff_keys (by rw [hki3]; exact hgood3)
      have e0 : KeyLive hash m k ↔ k ∈ keysOf (lo ++ hi) :=
        keyLive_iff_keys (by rw [hki]; exact hg)
      rw [e3, e0, keysOf_append, keysOf_setLastNext, keysOf_cons, keysOf_append]
      simp only [List.mem_append, List.mem_cons]
      constructor
      · rintro (h | h | h)
        · exact Or.inr (Or.inl h)
        · exact Or.inl h
        · exact Or.inr (Or.inr h)
      · rintro (h | h | h)
        · exact Or.inr (Or.inl h)
        · exact Or.inl h
        · exact Or.inr (Or.inr h)
    · have hki3 : hash k % m3.buckets.length ≠ i := by rw [hlen3]; exact hki
      obtain ⟨lj, hgj, hnj⟩ := hothers _ hjk hki
      have hgj3 : GoodChain hash m3 (hash k % m.buckets.length) lj :=
        htrans _ hjk hki lj hgj hnj
      have e3 : KeyLive hash m3 k ↔ k ∈ keysOf lj :=
        keyLive_iff_keys (by rw [show hash k % m3.buckets.length =
          hash k % m.buckets.length from by rw [hlen3]]; exact hgj3)
      have e0 : KeyLive hash m k ↔ k ∈ keysOf lj := keyLive_iff_keys hgj
      have hkne : k ≠ key := by
        intro hkk
        rw [hkk] at hki
        exact hki hkb
      rw [e3, e0]
      constructor
      · exact fun h => Or.inr h
      · rintro (h | h)
        · exact absurd h hkne
        · exact h
  have hframe : ∀ a nd0 nd1, lookupHeap m.heap a = some nd0 →
      lookupHeap m3.heap a = some nd1 → nd1.key = nd0.key ∧ nd1.value = nd0.value := by
    intro a nd0 nd1 h0 h1
    by_cases han : a = n
    · subst han
      rw [hn] at h0
      cases h0
      rw [hm3n] at h1
      cases h1
      exact ⟨rfl, rfl⟩
    · by_cases hal : ∃ xl, lo.getLast? = some xl ∧ xl.1 = a
      · obtain ⟨xl, hxl, hxa⟩ := hal
        subst hxa
        rw [hw_last xl hxl, hm2lk_ne xl.1 (hlast_ne_n xl hxl), h0] at h1
        cases h1
        exact ⟨rfl, rfl⟩
      · push_neg at hal
        rw [hm3pres a han (fun xl hxl => hal xl hxl), h0] at h1
        cases h1
        exact ⟨rfl, rfl⟩
  exact ⟨hread, hgood3, hInv3, hm3n, hbhead3, hlen3, hnext3, hkiff, hframe⟩

theorem linkPtr_eq_of {h : Heap} {p : MarkedPtr} {lo hi : List (Addr × Node)}
    (hch : IsChain h p (lo ++ hi)) (hpm : p.mark = false)
    (hlom : ∀ x ∈ lo, x.2.next.mark = false) :
    linkPtr p lo = ⟨headAddr hi, false⟩ := by
  apply markedPtr_ext
  · exact isChain_head_addr (isChain_append_right hch)
  · cases hgl : lo.getLast? with
    | none => unfold linkPtr; rw [hgl]; exact hpm
    | some xx =>
      unfold linkPtr; rw [hgl]
      exact hlom xx (mem_of_getLast?_eq hgl)

theorem isChain_mark_node {h : Heap} {p : MarkedPtr} {lo tl : List (Addr × Node)}
    {x : Addr × Node} {v : MarkedPtr} (hva : v.addr = x.2.next.addr)
    (hch : IsChain h p (lo ++ x :: tl))
    (hfst : ((lo ++ x :: tl).map Prod.fst).Nodup) :
    IsChain (setNextHeap h x.1 v) p (lo ++ (x.1, { x.2 with next := v }) :: tl) := by
  induction lo generalizing p with
  | nil =>
    have hxtl : x.1 ∉ tl.map Prod.fst := by
      simp only [List.nil_append, List.map_cons, List.nodup_cons] at hfst
      exact hfst.1
    refine isChain_cons.mpr ⟨hch.1, ?_, ?_⟩
    · rw [lookupHeap_setNext, if_pos rfl, hch.2.1]
      rfl
    · have htl : IsChain h x.2.next tl := hch.2.2
      have htl' : IsChain (setNextHeap h x.1 v) x.2.next tl :=
        isChain_congr htl (fun z hz => by
          rw [lookupHeap_setNext,
            if_neg (fun (hzx : z.1 = x.1) => hxtl (hzx ▸ List.mem_map_of_mem Prod.fst hz))]
          exact isChain_lookup htl z hz)
      exact isChain_of_addr_eq htl' hva
  | cons z lo' ih =>
    have hzx : z.1 ≠ x.1 := by
      simp only [List.cons_append, List.map_cons, List.nodup_cons] at hfst
      intro hz
      apply hfst.1
      rw [hz]
      exact List.mem_map_of_mem Prod.fst
        (List.mem_append_right lo' (List.mem_cons_self x tl))
    refine isChain_cons.mpr ⟨hch.1, ?_, ?_⟩
    · rw [lookupHeap_setNext, if_neg hzx]
      exact hch.2.1
    · exact ih hch.2.2 (by
        simp only [List.cons_append, List.map_cons, List.nodup_cons] at hfst
        exact hfst.2)

theorem unlink_spec {hash : Nat → Nat} {m : HMap} {i : Nat}
    {lo tl : List (Addr × Node)} {x : Addr × Node}
    (hB : 0 < m.buckets.length)
    (hilt : i < m.buckets.length)
    (hnodup : (m.heap.map Prod.fst).Nodup)
    (hbound : ∀ y ∈ m.heap, y.1 < m.nextAddr)
    (hg : GoodChain hash m i (lo ++ x :: tl))
    (hothers : ∀ j, j < m.buckets.length → j ≠ i → ∃ lj, GoodChain hash m j lj) :
    ∀ m2 mW m3, m2 = { m with heap := setNextHeap m.heap x.1 ⟨x.2.next.addr, true⟩ } →
      mW = writeRef m2 (posRef i lo) ⟨x.2.next.addr, false⟩ →
      m3 = reclaim mW x.1 →
      readRef m2 (posRef i lo) = some ⟨some x.1, false⟩ ∧
      lookupHeap m2.heap x.1 = some { x.2 with next := ⟨x.2.next.addr, true⟩ } ∧
      GoodChain hash m3 i (setLastNext lo ⟨x.2.next.addr, false⟩ ++ tl) ∧
      Inv hash m3 ∧
      (∀ j, j ≠ i → bucketHead m3 j = bucketHead m j) ∧
      m3.buckets.length = m.buckets.length ∧
      m3.nextAddr = m.nextAddr ∧
      lookupHeap m3.heap x.1 = none ∧
      (∀ k, KeyLive hash m3 k ↔ (KeyLive hash m k ∧ k ≠ x.2.key)) ∧
      (∀ a nd0 nd1, lookupHeap m.heap a = some nd0 → lookupHeap m3.heap a = some nd1 →
        nd1.key = nd0.key ∧ nd1.value = nd0.value) := by
  intro m2 mW m3 hm2 hmW hm3
  have hx_mem : x ∈ lo ++ x :: tl := List.mem_append_right lo (List.mem_cons_self x tl)
  have hfst : ((lo ++ x :: tl).map Prod.fst).Nodup := goodChain_fst_nodup hg
  have hxb : hash x.2.key % m.buckets.length = i := (hg.2.2.2 x hx_mem).2
  have hx_not_lo : x.1 ∉ lo.map Prod.fst := by
    rw [List.map_append, List.nodup_append] at hfst
    intro hmem
    exact hfst.2.2 hmem (by simp)
  have hx_not_tl : x.1 ∉ tl.map Prod.fst := by
    have h2 := hfst
    rw [List.map_append, List.nodup_append] at h2
    have := h2.2.1
    rw [List.map_cons, List.nodup_cons] at this
    exact this.1
  have hm2buckets : m2.buckets = m.buckets := by rw [hm2]
  have hm2next : m2.nextAddr = m.nextAddr := by rw [hm2]
  have hm2heap : m2.heap = setNextHeap m.heap x.1 ⟨x.2.next.addr, true⟩ := by rw [hm2]
  have hm2head : ∀ j, bucketHead m2 j = bucketHead m j := by
    intro j; unfold bucketHead; rw [hm2buckets]
  have hm2fst : m2.heap.map Prod.fst = m.heap.map Prod.fst := by
    rw [hm2heap]; exact map_fst_setNext _ _ _
  have hm2lk_ne : ∀ a, a ≠ x.1 → lookupHeap m2.heap a = lookupHeap m.heap a := by
    intro a ha
    rw [hm2heap, lookupHeap_setNext, if_neg ha]
  have hlkx : lookupHeap m.heap x.1 = some x.2 := isChain_lookup hg.1 x hx_mem
  have hm2x : lookupHeap m2.heap x.1 = some { x.2 with next := ⟨x.2.next.addr, true⟩ } := by
    rw [hm2heap, lookupHeap_setNext, if_pos rfl, hlkx]
    rfl
  have hilt2 : i < m2.buckets.length := by rw [hm2buckets]; exact hilt
  have hch2 : IsChain m2.heap (bucketHead m2 i)
      (lo ++ (x.1, { x.2 with next := ⟨x.2.next.addr, true⟩ }) :: tl) := by
    rw [hm2head, hm2heap]
    exact isChain_mark_node rfl hg.1 hfst
  have hfst2 : ((lo ++ (x.1, { x.2 with next := ⟨x.2.next.addr, true⟩ }) :: tl).map
      Prod.fst).Nodup := by
    rw [show (lo ++ (x.1, { x.2 with next := ⟨x.2.next.addr, true⟩ }) :: tl).map Prod.fst
      = (lo ++ x :: tl).map Prod.fst from by simp]
    exact hfst
  have hread : readRef m2 (posRef i lo) = some ⟨some x.1, false⟩ := by
    rw [readRef_posRef hch2 hilt2]
    have := linkPtr_eq_of hch2 (by rw [hm2head]; exact hg.2.1)
      (fun z hz => (hg.2.2.2 z (List.mem_append_left _ hz)).1)
    rw [this]
    rfl
  obtain ⟨hw_next, hw_blen, hw_fst, hw_bhead, hw_pres, hw_last, hw_hv, hw_chain⟩ :=
    write_pos_spec (⟨x.2.next.addr, false⟩ : MarkedPtr) hilt2 hch2 hfst2
  rw [← hmW] at hw_next hw_blen hw_fst hw_bhead hw_pres hw_last hw_hv hw_chain
  have hm3heap : m3.heap = removeAddr mW.heap x.1 := by rw [hm3]; rfl
  have hm3buckets : m3.buckets = mW.buckets := by rw [hm3]; rfl
  have hm3nextW : m3.nextAddr = mW.nextAddr := by rw [hm3]; rfl
  have hm3headW : ∀ j, bucketHead m3 j = bucketHead mW j := by
    intro j; unfold bucketHead; rw [hm3buckets]
  have hlen3 : m3.buckets.length = m.buckets.length := by
    rw [hm3buckets, hw_blen, hm2buckets]
  have hnext3 : m3.nextAddr = m.nextAddr := by rw [hm3nextW, hw_next, hm2next]
  have hbhead3 : ∀ j, j ≠ i → bucketHead m3 j = bucketHead m j :=
    fun j hj => (hm3headW j).trans ((hw_bhead j hj).trans (hm2head j))
  have hm3lkW : ∀ a, a ≠ x.1 → lookupHeap m3.heap a = lookupHeap mW.heap a := by
    intro a ha
    rw [hm3heap, lookupHeap_removeAddr, if_neg ha]
  have hm3x : lookupHeap m3.heap x.1 = none := by
    rw [hm3heap, lookupHeap_removeAddr, if_pos rfl]
  have hlast_in_lo : ∀ xl, lo.getLast? = some xl → xl.1 ∈ lo.map Prod.fst :=
    fun xl hxl => List.mem_map_of_mem Prod.fst (mem_of_getLast?_eq hxl)
  have hlast_ne_x : ∀ xl, lo.getLast? = some xl → xl.1 ≠ x.1 := by
    intro xl hxl heq
    exact hx_not_lo (heq ▸ hlast_in_lo xl hxl)
  have hlo_tl_disj : (lo.map Prod.fst).Disjoint (tl.map Prod.fst) := by
    rw [List.map_append, List.nodup_append] at hfst
    intro a ha hb
    exact hfst.2.2 ha (by rw [List.map_cons]; exact List.mem_cons_of_mem _ hb)
  have hm3pres : ∀ a, a ≠ x.1 → (∀ xl, lo.getLast? = some xl → xl.1 ≠ a) →
      lookupHeap m3.heap a = lookupHeap m.heap a := by
    intro a ha hal
    rw [hm3lkW a ha, hw_pres a hal, hm2lk_ne a ha]
  have htl_m : IsChain m.heap (⟨x.2.next.addr, false⟩ : MarkedPtr) tl := by
    have hsplit : lo ++ x :: tl = (lo ++ [x]) ++ tl := by simp
    have h1 : IsChain m.heap (bucketHead m i) ((lo ++ [x]) ++ tl) := by
      rw [← hsplit]; exact hg.1
    have h2 := isChain_append_right h1
    rw [linkPtr_concat] at h2
    exact isChain_of_addr_eq h2 rfl
  have htl_ne : ∀ z ∈ tl, z.1 ≠ x.1 ∧ ∀ xl, lo.getLast? = some xl → xl.1 ≠ z.1 := by
    intro z hz
    constructor
    · intro hzx
      exact hx_not_tl (hzx ▸ List.mem_map_of_mem Prod.fst hz)
    · intro xl hxl heq
      exact hlo_tl_disj (hlast_in_lo xl hxl) (heq ▸ List.mem_map_of_mem Prod.fst hz)
  have hcontW : IsChain mW.heap (⟨x.2.next.addr, false⟩ : MarkedPtr) tl := by
    apply isChain_congr htl_m
    intro z hz
    rw [hw_pres z.1 (htl_ne z hz).2, hm2lk_ne z.1 (htl_ne z hz).1]
    exact isChain_lookup htl_m z hz
  have hchainW := hw_chain _ hcontW
  have hchain3 : IsChain m3.heap (bucketHead m3 i)
      (setLastNext lo ⟨x.2.next.addr, false⟩ ++ tl) := by
    rw [hm3headW]
    apply isChain_congr hchainW
    intro z hz
    have hz1 : z.1 ≠ x.1 := by
      rcases List.mem_append.mp hz with hz | hz
      · intro heq
        apply hx_not_lo
        rw [← map_fst_setLastNext lo (⟨x.2.next.addr, false⟩ : MarkedPtr), ← heq]
        exact List.mem_map_of_mem Prod.fst hz
      · exact (htl_ne z hz).1
    rw [hm3lkW z.1 hz1]
    exact isChain_lookup hchainW z hz
  have hpw := hg.2.2.1
  rw [keysOf_append, keysOf_cons] at hpw
  have hpw3 : List.Pairwise (· < ·)
      (keysOf (setLastNext lo ⟨x.2.next.addr, false⟩ ++ tl)) := by
    rw [keysOf_append, keysOf_setLastNext]
    exact hpw.sublist ((List.sublist_cons_self x.2.key (keysOf tl)).append_left (keysOf lo))
  have hheadmark3 : (bucketHead m3 i).mark = false := by
    rw [hm3headW]
    rcases hw_hv with hv | hv
    · rw [hv]
    · rw [hv, hm2head i]; exact hg.2.1
  have hmemnew : ∀ z ∈ setLastNext lo ⟨x.2.next.addr, false⟩ ++ tl,
      z.2.next.mark = false ∧ hash z.2.key % m3.buckets.length = i := by
    intro z hz
    rw [hlen3]
    rcases List.mem_append.mp hz with hz | hz
    · obtain ⟨y, hy, h1, h2, h3, h4⟩ := setLastNext_mem hz
      have hym := hg.2.2.2 y (List.mem_append_left _ hy)
      refine ⟨?_, by rw [h2]; exact hym.2⟩
      rcases h4 with h4 | h4
      · rw [h4]; exact hym.1
      · rw [h4]
    · exact hg.2.2.2 z (List.mem_append_right lo (List.mem_cons_of_mem x hz))
  have hgood3 : GoodChain hash m3 i (setLastNext lo ⟨x.2.next.addr, false⟩ ++ tl) :=
    ⟨hchain3, hheadmark3, hpw3, hmemnew⟩
  have htrans : ∀ j, j < m.buckets.length → j ≠ i → ∀ lj, GoodChain hash m j lj →
      GoodChain hash m3 j lj := by
    intro j hj hji lj hgj
    refine goodChain_congr hgj (hbhead3 j hji) hlen3 ?_
    intro z hz
    have hdis := chains_disjoint hg hgj (fun h => hji h.symm)
    have hz1 : z.1 ≠ x.1 := by
      intro heq
      exact hdis x.1 (List.mem_map_of_mem Prod.fst hx_mem)
        (heq ▸ List.mem_map_of_mem Prod.fst hz)
    have hzl : ∀ xl, lo.getLast? = some xl → xl.1 ≠ z.1 := by
      intro xl hxl heq
      exact hdis xl.1
        (List.mem_map_of_mem Prod.fst (List.mem_append_left _ (mem_of_getLast?_eq hxl)))
        (heq ▸ List.mem_map_of_mem Prod.fst hz)
    rw [hm3pres z.1 hz1 hzl]
    exact isChain_lookup hgj.1 z hz
  have hm3fst_sub : (m3.heap.map Prod.fst).Sublist (m.heap.map Prod.fst) := by
    rw [hm3heap, ← hm2fst, ← hw_fst]
    exact (removeAddr_sublist mW.heap x.1).map Prod.fst
  have hInv3 : Inv hash m3 := by
    refine ⟨by rw [hlen3]; exact hB, hnodup.sublist hm3fst_sub, ?_, ?_⟩
    · intro z hz
      have hz1 : z.1 ∈ m3.heap.map Prod.fst := List.mem_map_of_mem Prod.fst hz
      have hz2 := hm3fst_sub.mem hz1
      obtain ⟨y, hy, hy1⟩ := List.mem_map.mp hz2
      rw [hnext3, ← hy1]
      exact hbound y hy
    · intro j hj
      rw [hlen3] at hj
      by_cases hji : j = i
      · subst hji; exact ⟨_, hgood3⟩
      · obtain ⟨lj, hgj⟩ := hothers j hj hji
        exact ⟨lj, htrans j hj hji lj hgj⟩
  have hkiff : ∀ k, KeyLive hash m3 k ↔ (KeyLive hash m k ∧ k ≠ x.2.key) := by
    intro k
    have hjk : hash k % m.buckets.length < m.buckets.length := Nat.mod_lt _ hB
    by_cases hki : hash k % m.buckets.length = i
    · have hki3 : hash k % m3.buckets.length = i := by rw [hlen3]; exact hki
      have e3 : KeyLive hash m3 k ↔
          k ∈ keysOf (setLastNext lo ⟨x.2.next.addr, false⟩ ++ tl) :=
        keyLive_iff_keys (by rw [hki3]; exact hgood3)
      have e0 : KeyLive hash m k ↔ k ∈ keysOf (lo ++ x :: tl) :=
        keyLive_iff_keys (by rw [hki]; exact hg)
      rw [e3, e0, keysOf_append, keysOf_setLastNext, keysOf_append, keysOf_cons]
      obtain ⟨hpw_lo, hpw_xtl, hpw_cross⟩ := List.pairwise_append.mp hpw
      constructor
      · intro hmem
        rcases List.mem_append.mp hmem with hmem | hmem
        · refine ⟨List.mem_append_left _ hmem, ?_⟩
          intro hkx
          exact absurd (hpw_cross k hmem x.2.key (by simp)) (by rw [hkx]; exact lt_irrefl _)
        · refine ⟨List.mem_append_right _ (List.mem_cons_of_mem _ hmem), ?_⟩
          intro hkx
          have := (List.pairwise_cons.mp hpw_xtl).1 k hmem
          rw [hkx] at this
          exact absurd this (lt_irrefl _)
      · rintro ⟨hmem, hkx⟩
        rcases List.mem_append.mp hmem with hmem | hmem
        · exact List.mem_append_left _ hmem
        · rcases List.mem_cons.mp hmem with hmem | hmem
          · exact absurd hmem hkx
          · exact List.mem_append_right _ hmem
    · have hki3 : hash k % m3.buckets.length ≠ i := by rw [hlen3]; exact hki
      obtain ⟨lj, hgj⟩ := hothers _ hjk hki
      have hgj3 : GoodChain hash m3 (hash k % m.buckets.length) lj :=
        htrans _ hjk hki lj hgj
      have e3 : KeyLive hash m3 k ↔ k ∈ keysOf lj :=
        keyLive_iff_keys (by rw [show hash k % m3.buckets.length =
          hash k % m.buckets.length from by rw [hlen3]]; exact hgj3)
      have e0 : KeyLive hash m k ↔ k ∈ keysOf lj := keyLive_iff_keys hgj
      have hkne : k ≠ x.2.key := by
        intro hkk
        rw [hkk] at hki
        exact hki hxb
      rw [e3, e0]
      exact ⟨fun h => ⟨h, hkne⟩, fun h => h.1⟩
  have hframe : ∀ a nd0 nd1, lookupHeap m.heap a = some nd0 →
      lookupHeap m3.heap a = some nd1 → nd1.key = nd0.key ∧ nd1.value = nd0.value := by
    intro a nd0 nd1 h0 h1
    by_cases hax : a = x.1
    · subst hax
      rw [hm3x] at h1
      cases h1
    · by_cases hal : ∃ xl, lo.getLast? = some xl ∧ xl.1 = a
      · obtain ⟨xl, hxl, hxa⟩ := hal
        subst hxa
        rw [hm3lkW xl.1 hax, hw_last xl hxl, hm2lk_ne xl.1 hax, h0] at h1
        cases h1
        exact ⟨rfl, rfl⟩
      · push_neg at hal
        rw [hm3pres a hax (fun xl hxl => hal xl hxl), h0] at h1
        cases h1
        exact ⟨rfl, rfl⟩
  exact ⟨hread, hm2x, hgood3, hInv3, hbhead3, hlen3, hnext3, hm3x, hkiff, hframe⟩

/-! ## Per-operation specifications (sequential executions) -/

theorem keyLive_congr {hash : Nat → Nat} {m m' : HMap} {k : Nat}
    (hheap : m'.heap = m.heap) (hbuckets : m'.buckets = m.buckets) :
    KeyLive hash m' k ↔ KeyLive hash m k := by
  unfold KeyLive bucketHead
  rw [hheap, hbuckets]

theorem op_find_setup {hash : Nat → Nat} {m : HMap} (key : Nat) (hInv : Inv hash m) :
    ∃ lo hi, GoodChain hash m (hash key % m.buckets.length) (lo ++ hi) ∧
      (∀ x ∈ lo, x.2.key < key) ∧ (∀ y, hi.head? = some y → key ≤ y.2.key) ∧
      find key (hash key % m.buckets.length) m (headInfo (hash key % m.buckets.length))
          (findFuel m)
        = some (foundIn hi key,
            ⟨some (posRef (hash key % m.buckets.length) lo), nextOf hi, headAddr hi,
              posSave lo⟩, m) ∧
      (foundIn hi key = true ↔ KeyLive hash m key) ∧
      (foundIn hi key = false → ∀ y, hi.head? = some y → key < y.2.key) := by
  have hilt : hash key % m.buckets.length < m.buckets.length := Nat.mod_lt _ hInv.1
  obtain ⟨l, hg⟩ := hInv.2.2.2 _ hilt
  have hfuel : l.length + 2 ≤ findFuel m := by
    unfold findFuel
    have := goodChain_length_le hg
    omega
  obtain ⟨lo, hi, hsplit, hlo, hhge, hfind⟩ := find_head_spec key hg hilt hfuel
  subst hsplit
  refine ⟨lo, hi, hg, hlo, hhge, hfind, ?_, ?_⟩
  · rw [foundIn_iff_mem hg.2.2.1 hlo hhge]
    exact (keyLive_iff_keys hg).symm
  · intro hfalse y hy
    have hne : y.2.key ≠ key := by
      intro heq
      rw [show foundIn hi key = true from by
        cases hi with
        | nil => cases hy
        | cons z tl =>
          rw [List.head?_cons] at hy
          cases hy
          simp [foundIn, heq]] at hfalse
      cases hfalse
    exact lt_of_le_of_ne (hhge y hy) (fun h => hne h.symm)

theorem contains_spec {hash : Nat → Nat} {m : HMap} (key : Nat) (hInv : Inv hash m) :
    ∃ r, contains hash m key = some (r, m, 1) ∧ (r = true ↔ KeyLive hash m key) := by
  obtain ⟨lo, hi, hg, hlo, hhge, hfind, hiff, hlt⟩ := op_find_setup key hInv
  refine ⟨foundIn hi key, ?_, hiff⟩
  show Option.map (fun r => (r.1, r.2.2, 1))
    (find key (hash key % m.buckets.length) m (headInfo (hash key % m.buckets.length))
      (findFuel m)) = _
  rw [hfind]
  rfl

theorem findKey_spec {hash : Nat → Nat} {m : HMap} (key : Nat) (hInv : Inv hash m) :
    ∃ it, findKey hash m key = some (it, m, 1) ∧
      (KeyLive hash m key →
        it.bucket = hash key % m.buckets.length ∧
        ∃ a nd, it.info.cur = some a ∧ lookupHeap m.heap a = some nd ∧ nd.key = key) ∧
      (¬KeyLive hash m key → it = endIter m) := by
  obtain ⟨lo, hi, hg, hlo, hhge, hfind, hiff, hlt⟩ := op_find_setup key hInv
  have hred : findKey hash m key =
      match find key (hash key % m.buckets.length) m
        (headInfo (hash key % m.buckets.length)) (findFuel m) with
      | none => none
      | some (true, info, m') => some (⟨hash key % m.buckets.length, info⟩, m', 1)
      | some (false, _, m') => some (endIter m', m', 1) := rfl
  cases hfound : foundIn hi key with
  | true =>
    rw [hfound] at hfind
    rw [hred, hfind]
    refine ⟨_, rfl, ?_, ?_⟩
    · intro _
      refine ⟨rfl, ?_⟩
      cases hi with
      | nil => simp [foundIn] at hfound
      | cons y tl =>
        have hyk : y.2.key = key := by simpa [foundIn] using hfound
        exact ⟨y.1, y.2, rfl,
          isChain_lookup hg.1 y (List.mem_append_right lo (List.mem_cons_self y tl)), hyk⟩
    · intro hnl
      exact absurd (hiff.mp hfound) hnl
  | false =>
    rw [hfound] at hfind
    rw [hred, hfind]
    refine ⟨endIter m, rfl, ?_, fun _ => rfl⟩
    intro hl
    rw [← hiff] at hl
    rw [hfound] at hl
    cases hl

theorem foundIn_false_lt {key : Nat} {hi : List (Addr × Node)} (hf : foundIn hi key = false)
    (hge : ∀ y, hi.head? = some y → key ≤ y.2.key) :
    ∀ y, hi.head? = some y → key < y.2.key := by
  intro y hy
  have hne : y.2.key ≠ key := by
    intro heq
    rw [show foundIn hi key = true from by
      cases hi with
      | nil => cases hy
      | cons z tl =>
        rw [List.head?_cons] at hy
        cases hy
        simp [foundIn, heq]] at hf
    cases hf
  exact lt_of_le_of_ne (hge y hy) (fun h => hne h.symm)

theorem emplace_or_get_spec {hash : Nat → Nat} {m : HMap} (key v : Nat) {fuel : Nat}
    (hInv : Inv hash m) (hfuel : 1 ≤ fuel) :
    ∃ it b m', emplace_or_get hash m key v fuel = some ((it, b), m', 1) ∧
      Inv hash m' ∧
      (b = true ↔ ¬ KeyLive hash m key) ∧
      KeyLive hash m' key ∧
      (∀ k, KeyLive hash m' k ↔ (k = key ∨ KeyLive hash m k)) ∧
      (b = false → m'.heap = m.heap ∧ m'.buckets = m.buckets) ∧
      it.bucket = hash key % m.buckets.length ∧
      (∃ a nd, it.info.cur = some a ∧ lookupHeap m'.heap a = some nd ∧ nd.key = key ∧
        (b = true → nd.value = v)) ∧
      (∀ j, j ≠ hash key % m.buckets.length → bucketHead m' j = bucketHead m j) ∧
      m'.buckets.length = m.buckets.length ∧
      (∀ a nd0 nd1, lookupHeap m.heap a = some nd0 → lookupHeap m'.heap a = some nd1 →
        nd1.key = nd0.key ∧ nd1.value = nd0.value) := by
  obtain ⟨hB, hnodup, hbound, hchains⟩ := hInv
  obtain ⟨f, rfl⟩ : ∃ f, fuel = f + 1 := ⟨fuel - 1, by omega⟩
  set i := hash key % m.buckets.length with hidef
  have hilt : i < m.buckets.length := Nat.mod_lt _ hB
  have hfresh : ∀ x ∈ m.heap, x.1 ≠ m.nextAddr :=
    fun x hx => Nat.ne_of_lt (hbound x hx)
  obtain ⟨l, hgm⟩ := hchains i hilt
  have hg1 : GoodChain hash (allocNode m key v).2 i l := goodChain_alloc key v hgm hbound
  have hfuel1 : l.length + 2 ≤ findFuel (allocNode m key v).2 := by
    unfold findFuel
    have := goodChain_length_le hg1
    omega
  obtain ⟨lo, hi, hsplit, hlo, hhge, hfind⟩ := find_head_spec key hg1 hilt hfuel1
  subst hsplit
  have hiffm : foundIn hi key = true ↔ KeyLive hash m key := by
    rw [foundIn_iff_mem hgm.2.2.1 hlo hhge]
    exact (keyLive_iff_keys hgm).symm
  have hstep : emplace_or_get hash m key v (f + 1)
      = emplaceOrGetLoop key m.nextAddr i (allocNode m key v).2 (headInfo i) 0 (f + 1) := rfl
  cases hfound : foundIn hi key with
  | true =>
    have hlive : KeyLive hash m key := hiffm.mp hfound
    rw [hfound] at hfind
    cases hi with
    | nil => simp [foundIn] at hfound
    | cons y tl =>
    have hyk : y.2.key = key := by simpa [foundIn] using hfound
    have hm'heap : (reclaim (allocNode m key v).2 m.nextAddr).heap = m.heap := by
      show removeAddr (allocNode m key v).2.heap m.nextAddr = m.heap
      rw [allocNode_heap]
      exact removeAddr_append_fresh _ hfresh
    have hm'buckets : (reclaim (allocNode m key v).2 m.nextAddr).buckets = m.buckets := rfl
    have hm'head : ∀ j, bucketHead (reclaim (allocNode m key v).2 m.nextAddr) j
        = bucketHead m j := by
      intro j; unfold bucketHead; rw [hm'buckets]
    have hkcongr : ∀ k, KeyLive hash (reclaim (allocNode m key v).2 m.nextAddr) k
        ↔ KeyLive hash m k := fun k => keyLive_congr hm'heap hm'buckets
    refine ⟨⟨i, ⟨some (posRef i lo), nextOf (y :: tl), headAddr (y :: tl), posSave lo⟩⟩,
      false, reclaim (allocNode m key v).2 m.nextAddr, ?_, ?_, ?_, ?_, ?_, ?_, rfl, ?_, ?_, ?_, ?_⟩
    · rw [hstep]
      simp only [emplaceOrGetLoop]
      rw [hfind]
      simp
    · refine ⟨hB, by rw [hm'heap]; exact hnodup, ?_, ?_⟩
      · intro x hx
        rw [show (reclaim (allocNode m key v).2 m.nextAddr).nextAddr = m.nextAddr + 1 from rfl]
        rw [hm'heap] at hx
        exact Nat.lt_succ_of_lt (hbound x hx)
      · intro j hj
        obtain ⟨lj, hgj⟩ := hchains j hj
        refine ⟨lj, goodChain_congr hgj (hm'head j) (by rw [hm'buckets]) ?_⟩
        intro x hx
        rw [hm'heap]
        exact isChain_lookup hgj.1 x hx
    · simp [hlive]
    · exact (hkcongr key).mpr hlive
    · intro k
      rw [hkcongr k]
      constructor
      · exact fun h => Or.inr h
      · rintro (h | h)
        · rw [h]; exact hlive
        · exact h
    · exact fun _ => ⟨hm'heap, hm'buckets⟩
    · refine ⟨y.1, y.2, rfl, ?_, hyk, by intro h; cases h⟩
      rw [hm'heap]
      exact isChain_lookup hgm.1 y (List.mem_append_right lo (List.mem_cons_self y tl))
    · intro j _; exact hm'head j
    · rw [hm'buckets]
    · intro a nd0 nd1 h0 h1
      rw [hm'heap] at h1
      rw [h0] at h1
      cases h1
      exact ⟨rfl, rfl⟩
  | false =>
    have hnotlive : ¬KeyLive hash m key := by
      intro hl
      rw [hiffm.mpr hl] at hfound
      cases hfound
    have hkeylt := foundIn_false_lt hfound hhge
    rw [hfound] at hfind
    have hnchain : m.nextAddr ∉ (lo ++ hi).map Prod.fst := by
      intro hmem
      obtain ⟨x, hx, hx1⟩ := List.mem_map.mp hmem
      have := hbound x (chain_mem_heap hgm.1 x hx)
      rw [hx1] at this
      exact absurd this (lt_irrefl _)
    have hn1 : lookupHeap (allocNode m key v).2.heap m.nextAddr
        = some ⟨key, v, MarkedPtr.null⟩ := lookupHeap_alloc_self key v hbound
    have hothers1 : ∀ j, j < (allocNode m key v).2.buckets.length → j ≠ i →
        ∃ lj, GoodChain hash (allocNode m key v).2 j lj ∧
          m.nextAddr ∉ lj.map Prod.fst := by
      intro j hj hji
      obtain ⟨lj, hgj⟩ := hchains j hj
      refine ⟨lj, goodChain_alloc key v hgj hbound, ?_⟩
      intro hmem
      obtain ⟨x, hx, hx1⟩ := List.mem_map.mp hmem
      have := hbound x (chain_mem_heap hgj.1 x hx)
      rw [hx1] at this
      exact absurd this (lt_irrefl _)
    obtain ⟨hread, hgood3, hInv3, hm3n, hbhead3, hlen3, hnext3, hkiff3, hframe3⟩ :=
      install_spec (m := (allocNode m key v).2) (w := MarkedPtr.null) hB hilt hidef.symm
        (alloc_nodup key v hnodup hbound) (alloc_bound key v hbound) hg1 hlo hkeylt
        hn1 hnchain hothers1 _ _ rfl rfl
    have haiff := fun k => keyLive_alloc_iff (m := m) key v k hB hbound hchains
    refine ⟨⟨i, ⟨some (posRef i lo), nextOf hi, some m.nextAddr, posSave lo⟩⟩, true,
      writeRef { (allocNode m key v).2 with
        heap := setNextHeap (allocNode m key v).2.heap m.nextAddr ⟨headAddr hi, false⟩ }
        (posRef i lo) ⟨some m.nextAddr, false⟩,
      ?_, hInv3, by simp [hnotlive], hkiff3 key |>.mpr (Or.inl rfl), ?_, ?_, rfl, ?_, ?_, ?_, ?_⟩
    · rw [hstep]
      simp only [emplaceOrGetLoop]
      rw [hfind]
      simp only [Bool.false_eq_true, if_false]
      rw [if_pos hread]
    · intro k
      rw [hkiff3 k, haiff k]
    · intro h; cases h
    · exact ⟨m.nextAddr, _, rfl, hm3n, rfl, fun _ => rfl⟩
    · exact fun j hj => hbhead3 j hj
    · exact hlen3
    · intro a nd0 nd1 h0 h1
      have ha : a ≠ m.nextAddr := by
        have := lookupHeap_mem h0
        exact hfresh _ this
      have h0' : lookupHeap (allocNode m key v).2.heap a = some nd0 := by
        rw [lookupHeap_alloc_lt key v ha]
        exact h0
      exact hframe3 a nd0 nd1 h0' h1

theorem get_or_emplace_spec {hash : Nat → Nat} {m : HMap} (key v : Nat) {fuel : Nat}
    (hInv : Inv hash m) (hfuel : 1 ≤ fuel) :
    ∃ it b m', get_or_emplace hash m key v fuel = some ((it, b), m', 1) ∧
      Inv hash m' ∧
      (b = true ↔ ¬ KeyLive hash m key) ∧
      KeyLive hash m' key ∧
      (∀ k, KeyLive hash m' k ↔ (k = key ∨ KeyLive hash m k)) ∧
      (b = false → m' = m) ∧
      it.bucket = hash key % m.buckets.length ∧
      (∃ a nd, it.info.cur = some a ∧ lookupHeap m'.heap a = some nd ∧ nd.key = key ∧
        (b = true → nd.value = v)) ∧
      (∀ j, j ≠ hash key % m.buckets.length → bucketHead m' j = bucketHead m j) ∧
      m'.buckets.length = m.buckets.length ∧
      (∀ a nd0 nd1, lookupHeap m.heap a = some nd0 → lookupHeap m'.heap a = some nd1 →
        nd1.key = nd0.key ∧ nd1.value = nd0.value) := by
  obtain ⟨lo, hi, hg, hlo, hhge, hfind, hiffm, _⟩ := op_find_setup key hInv
  obtain ⟨hB, hnodup, hbound, hchains⟩ := hInv
  obtain ⟨f, rfl⟩ : ∃ f, fuel = f + 1 := ⟨fuel - 1, by omega⟩
  set i := hash key % m.buckets.length with hidef
  have hilt : i < m.buckets.length := Nat.mod_lt _ hB
  have hfresh : ∀ x ∈ m.heap, x.1 ≠ m.nextAddr :=
    fun x hx => Nat.ne_of_lt (hbound x hx)
  have hstep : get_or_emplace hash m key v (f + 1)
      = getOrEmplaceLoop key v i m none (headInfo i) 0 (f + 1) := rfl
  cases hfound : foundIn hi key with
  | true =>
    have hlive : KeyLive hash m key := hiffm.mp hfound
    rw [hfound] at hfind
    cases hi with
    | nil => simp [foundIn] at hfound
    | cons y tl =>
    have hyk : y.2.key = key := by simpa [foundIn] using hfound
    refine ⟨⟨i, ⟨some (posRef i lo), nextOf (y :: tl), headAddr (y :: tl), posSave lo⟩⟩,
      false, m, ?_, ⟨hB, hnodup, hbound, hchains⟩, by simp [hlive], hlive, ?_,
      fun _ => rfl, rfl, ?_, fun j _ => rfl, rfl, ?_⟩
    · rw [hstep]
      simp only [getOrEmplaceLoop]
      rw [hfind]
      simp
    · intro k
      constructor
      · exact fun h => Or.inr h
      · rintro (h | h)
        · rw [h]; exact hlive
        · exact h
    · exact ⟨y.1, y.2, rfl,
        isChain_lookup hg.1 y (List.mem_append_right lo (List.mem_cons_self y tl)), hyk,
        by intro h; cases h⟩
    · intro a nd0 nd1 h0 h1
      rw [h0] at h1
      cases h1
      exact ⟨rfl, rfl⟩
  | false =>
    have hnotlive : ¬KeyLive hash m key := by
      intro hl
      rw [hiffm.mpr hl] at hfound
      cases hfound
    have hkeylt := foundIn_false_lt hfound hhge
    rw [hfound] at hfind
    have hg1 : GoodChain hash (allocNode m key v).2 i (lo ++ hi) :=
      goodChain_alloc key v hg hbound
    have hnchain : m.nextAddr ∉ (lo ++ hi).map Prod.fst := by
      intro hmem
      obtain ⟨x, hx, hx1⟩ := List.mem_map.mp hmem
      have := hbound x (chain_mem_heap hg.1 x hx)
      rw [hx1] at this
      exact absurd this (lt_irrefl _)
    have hn1 : lookupHeap (allocNode m key v).2.heap m.nextAddr
        = some ⟨key, v, MarkedPtr.null⟩ := lookupHeap_alloc_self key v hbound
    have hothers1 : ∀ j, j < (allocNode m key v).2.buckets.length → j ≠ i →
        ∃ lj, GoodChain hash (allocNode m key v).2 j lj ∧
          m.nextAddr ∉ lj.map Prod.fst := by
      intro j hj hji
      obtain ⟨lj, hgj⟩ := hchains j hj
      refine ⟨lj, goodChain_alloc key v hgj hbound, ?_⟩
      intro hmem
      obtain ⟨x, hx, hx1⟩ := List.mem_map.mp hmem
      have := hbound x (chain_mem_heap hgj.1 x hx)
      rw [hx1] at this
      exact absurd this (lt_irrefl _)
    obtain ⟨hread, hgood3, hInv3, hm3n, hbhead3, hlen3, hnext3, hkiff3, hframe3⟩ :=
      install_spec (m := (allocNode m key v).2) (w := MarkedPtr.null) hB hilt hidef.symm
        (alloc_nodup key v hnodup hbound) (alloc_bound key v hbound) hg1 hlo hkeylt
        hn1 hnchain hothers1 _ _ rfl rfl
    have haiff := fun k => keyLive_alloc_iff (m := m) key v k hB hbound hchains
    refine ⟨⟨i, ⟨some (posRef i lo), nextOf hi, some m.nextAddr, posSave lo⟩⟩, true,
      writeRef { (allocNode m key v).2 with
        heap := setNextHeap (allocNode m key v).2.heap m.nextAddr ⟨headAddr hi, false⟩ }
        (posRef i lo) ⟨some m.nextAddr, false⟩,
      ?_, hInv3, ?_, ?_, ?_, ?_, rfl, ?_, ?_, ?_, ?_⟩
    · rw [hstep]
      simp only [getOrEmplaceLoop]
      rw [hfind]
      simp only [Bool.false_eq_true, if_false]
      rw [show (allocNode m key v).1 = m.nextAddr from rfl, if_pos hread]
    · simp [hnotlive]
    · exact hkiff3 key |>.mpr (Or.inl rfl)
    · intro k
      rw [hkiff3 k, haiff k]
    · intro h; cases h
    · exact ⟨m.nextAddr, _, rfl, hm3n, rfl, fun _ => rfl⟩
    · exact fun j hj => hbhead3 j hj
    · exact hlen3
    · intro a nd0 nd1 h0 h1
      have ha : a ≠ m.nextAddr := hfresh _ (lookupHeap_mem h0)
      have h0' : lookupHeap (allocNode m key v).2.heap a = some nd0 := by
        rw [lookupHeap_alloc_lt key v ha]
        exact h0
      exact hframe3 a nd0 nd1 h0' h1

theorem get_or_emplace_lazy_spec {hash : Nat → Nat} {m : HMap} (key fv : Nat) {fuel : Nat}
    (hInv : Inv hash m) (hfuel : 1 ≤ fuel) :
    ∃ it b m' fcnt, get_or_emplace_lazy hash m key fv fuel = some ((it, b), m', 1, fcnt) ∧
      Inv hash m' ∧
      (b = true ↔ ¬ KeyLive hash m key) ∧
      KeyLive hash m' key ∧
      (∀ k, KeyLive hash m' k ↔ (k = key ∨ KeyLive hash m k)) ∧
      (KeyLive hash m key → b = false ∧ fcnt = 0 ∧ m' = m) ∧
      fcnt ≤ 1 ∧
      (b = true → fcnt = 1) ∧
      it.bucket = hash key % m.buckets.length ∧
      (∃ a nd, it.info.cur = some a ∧ lookupHeap m'.heap a = some nd ∧ nd.key = key ∧
        (b = true → nd.value = fv)) ∧
      m'.buckets.length = m.buckets.length ∧
      (∀ a nd0 nd1, lookupHeap m.heap a = some nd0 → lookupHeap m'.heap a = some nd1 →
        nd1.key = nd0.key ∧ nd1.value = nd0.value) := by
  obtain ⟨lo, hi, hg, hlo, hhge, hfind, hiffm, _⟩ := op_find_setup key hInv
  obtain ⟨hB, hnodup, hbound, hchains⟩ := hInv
  obtain ⟨f, rfl⟩ : ∃ f, fuel = f + 1 := ⟨fuel - 1, by omega⟩
  set i := hash key % m.buckets.length with hidef
  have hilt : i < m.buckets.length := Nat.mod_lt _ hB
  have hfresh : ∀ x ∈ m.heap, x.1 ≠ m.nextAddr :=
    fun x hx => Nat.ne_of_lt (hbound x hx)
  have hstep : get_or_emplace_lazy hash m key fv (f + 1)
      = getOrEmplaceLazyLoop key fv i m none (headInfo i) 0 0 (f + 1) := rfl
  cases hfound : foundIn hi key with
  | true =>
    have hlive : KeyLive hash m key := hiffm.mp hfound
    rw [hfound] at hfind
    cases hi with
    | nil => simp [foundIn] at hfound
    | cons y tl =>
    have hyk : y.2.key = key := by simpa [foundIn] using hfound
    refine ⟨⟨i, ⟨some (posRef i lo), nextOf (y :: tl), headAddr (y :: tl), posSave lo⟩⟩,
      false, m, 0, ?_, ⟨hB, hnodup, hbound, hchains⟩, ?_, hlive, ?_, ?_, ?_, ?_, rfl, ?_,
      rfl, ?_⟩
    · rw [hstep]
      simp only [getOrEmplaceLazyLoop]
      rw [hfind]
      simp
    · simp [hlive]
    · intro k
      constructor
      · exact fun h => Or.inr h
      · rintro (h | h)
        · rw [h]; exact hlive
        · exact h
    · exact fun _ => ⟨rfl, rfl, rfl⟩
    · omega
    · intro h; cases h
    · exact ⟨y.1, y.2, rfl,
        isChain_lookup hg.1 y (List.mem_append_right lo (List.mem_cons_self y tl)), hyk,
        by intro h; cases h⟩
    · intro a nd0 nd1 h0 h1
      rw [h0] at h1
      cases h1
      exact ⟨rfl, rfl⟩
  | false =>
    have hnotlive : ¬KeyLive hash m key := by
      intro hl
      rw [hiffm.mpr hl] at hfound
      cases hfound
    have hkeylt := foundIn_false_lt hfound hhge
    rw [hfound] at hfind
    have hg1 : GoodChain hash (allocNode m key fv).2 i (lo ++ hi) :=
      goodChain_alloc key fv hg hbound
    have hnchain : m.nextAddr ∉ (lo ++ hi).map Prod.fst := by
      intro hmem
      obtain ⟨x, hx, hx1⟩ := List.mem_map.mp hmem
      have := hbound x (chain_mem_heap hg.1 x hx)
      rw [hx1] at this
      exact absurd this (lt_irrefl _)
    have hn1 : lookupHeap (allocNode m key fv).2.heap m.nextAddr
        = some ⟨key, fv, MarkedPtr.null⟩ := lookupHeap_alloc_self key fv hbound
    have hothers1 : ∀ j, j < (allocNode m key fv).2.buckets.length → j ≠ i →
        ∃ lj, GoodChain hash (allocNode m key fv).2 j lj ∧
          m.nextAddr ∉ lj.map Prod.fst := by
      intro j hj hji
      obtain ⟨lj, hgj⟩ := hchains j hj
      refine ⟨lj, goodChain_alloc key fv hgj hbound, ?_⟩
      intro hmem
      obtain ⟨x, hx, hx1⟩ := List.mem_map.mp hmem
      have := hbound x (chain_mem_heap hgj.1 x hx)
      rw [hx1] at this
      exact absurd this (lt_irrefl _)
    obtain ⟨hread, hgood3, hInv3, hm3n, hbhead3, hlen3, hnext3, hkiff3, hframe3⟩ :=
      install_spec (m := (allocNode m key fv).2) (w := MarkedPtr.null) hB hilt hidef.symm
        (alloc_nodup key fv hnodup hbound) (alloc_bound key fv hbound) hg1 hlo hkeylt
        hn1 hnchain hothers1 _ _ rfl rfl
    have haiff := fun k => keyLive_alloc_iff (m := m) key fv k hB hbound hchains
    refine ⟨⟨i, ⟨some (posRef i lo), nextOf hi, some m.nextAddr, posSave lo⟩⟩, true,
      writeRef { (allocNode m key fv).2 with
        heap := setNextHeap (allocNode m key fv).2.heap m.nextAddr ⟨headAddr hi, false⟩ }
        (posRef i lo) ⟨some m.nextAddr, false⟩, 1,
      ?_, hInv3, ?_, ?_, ?_, ?_, ?_, ?_, rfl, ?_, hlen3, ?_⟩
    · rw [hstep]
      simp only [getOrEmplaceLazyLoop]
      rw [hfind]
      simp only [Bool.false_eq_true, if_false]
      rw [show (allocNode m key fv).1 = m.nextAddr from rfl, if_pos hread]
    · simp [hnotlive]
    · exact hkiff3 key |>.mpr (Or.inl rfl)
    · intro k
      rw [hkiff3 k, haiff k]
    · exact fun h => absurd h hnotlive
    · omega
    · exact fun _ => rfl
    · exact ⟨m.nextAddr, _, rfl, hm3n, rfl, fun _ => rfl⟩
    · intro a nd0 nd1 h0 h1
      have ha : a ≠ m.nextAddr := hfresh _ (lookupHeap_mem h0)
      have h0' : lookupHeap (allocNode m key fv).2.heap a = some nd0 := by
        rw [lookupHeap_alloc_lt key fv ha]
        exact h0
      exact hframe3 a nd0 nd1 h0' h1

theorem erase_spec {hash : Nat → Nat} {m : HMap} (key : Nat) {fuel : Nat}
    (hInv : Inv hash m) (hfuel : 1 ≤ fuel) :
    (¬KeyLive hash m key → erase hash m key fuel = some (false, m, 1)) ∧
    (KeyLive hash m key → ∃ info a nd2 m2 m',
      eraseLoop key (hash key % m.buckets.length) m
          (headInfo (hash key % m.buckets.length)) 0 fuel = some (true, info, m2, 1) ∧
      info.cur = some a ∧
      lookupHeap m2.heap a = some nd2 ∧ nd2.next.mark = true ∧ nd2.key = key ∧
      erase hash m key fuel = some (true, m', 1) ∧
      Inv hash m' ∧ ¬KeyLive hash m' key ∧
      (∀ k, KeyLive hash m' k ↔ (KeyLive hash m k ∧ k ≠ key)) ∧
      (∀ j, j ≠ hash key % m.buckets.length → bucketHead m' j = bucketHead m j) ∧
      m'.buckets.length = m.buckets.length ∧
      lookupHeap m'.heap a = none ∧
      (∀ a0 nd0 nd1, lookupHeap m.heap a0 = some nd0 → lookupHeap m'.heap a0 = some nd1 →
        nd1.key = nd0.key ∧ nd1.value = nd0.value)) := by
  obtain ⟨lo, hi, hg, hlo, hhge, hfind, hiffm, _⟩ := op_find_setup key hInv
  obtain ⟨hB, hnodup, hbound, hchains⟩ := hInv
  obtain ⟨f, rfl⟩ : ∃ f, fuel = f + 1 := ⟨fuel - 1, by omega⟩
  set i := hash key % m.buckets.length with hidef
  have hilt : i < m.buckets.length := Nat.mod_lt _ hB
  have hstep : erase hash m key (f + 1)
      = match eraseLoop key i m (headInfo i) 0 (f + 1) with
        | none => none
        | some (false, _, m1, cnt) => some (false, m1, cnt)
        | some (true, info, m2, cnt) =>
          match info.cur, info.prev with
          | some a, some pr =>
            if readRef m2 pr = some ⟨some a, false⟩ then
              some (true, reclaim (writeRef m2 pr ⟨info.next.addr, false⟩) a, cnt)
            else
              match find key i m2 info (findFuel m2) with
              | none => none
              | some (_, _, m3) => some (true, m3, cnt + 1)
          | _, _ => none := rfl
  constructor
  · intro hnl
    have hfound : foundIn hi key = false := by
      cases h : foundIn hi key
      · rfl
      · exact absurd (hiffm.mp h) hnl
    rw [hfound] at hfind
    have hloop : eraseLoop key i m (headInfo i) 0 (f + 1)
        = some (false, ⟨some (posRef i lo), nextOf hi, headAddr hi, posSave lo⟩, m, 1) := by
      simp only [eraseLoop]
      rw [hfind]
      simp
    rw [hstep, hloop]
  · intro hl
    have hfound : foundIn hi key = true := hiffm.mpr hl
    cases hi with
    | nil => simp [foundIn] at hfound
    | cons x tl =>
    have hxk : x.2.key = key := by simpa [foundIn] using hfound
    rw [hfound] at hfind
    rw [show headAddr (x :: tl) = some x.1 from rfl,
      show nextOf (x :: tl) = x.2.next from rfl] at hfind
    have hxmem : x ∈ lo ++ x :: tl := List.mem_append_right lo (List.mem_cons_self x tl)
    have hlkx : lookupHeap m.heap x.1 = some x.2 := isChain_lookup hg.1 x hxmem
    have hothers : ∀ j, j < m.buckets.length → j ≠ i → ∃ lj, GoodChain hash m j lj :=
      fun j hj _ => hchains j hj
    obtain ⟨hread, hm2x, hgood3, hInv3, hbhead3, hlen3, hnext3, hm3x, hkiff3, hframe3⟩ :=
      unlink_spec hB hilt hnodup hbound hg hothers _ _ _ rfl rfl rfl
    have hloop : eraseLoop key i m (headInfo i) 0 (f + 1)
        = some (true, ⟨some (posRef i lo), x.2.next, some x.1, posSave lo⟩,
            { m with heap := setNextHeap m.heap x.1 ⟨x.2.next.addr, true⟩ }, 1) := by
      simp only [eraseLoop]
      rw [hfind]
      simp [hlkx]
    refine ⟨⟨some (posRef i lo), x.2.next, some x.1, posSave lo⟩, x.1,
      { x.2 with next := ⟨x.2.next.addr, true⟩ },
      { m with heap := setNextHeap m.heap x.1 ⟨x.2.next.addr, true⟩ },
      reclaim (writeRef { m with heap := setNextHeap m.heap x.1 ⟨x.2.next.addr, true⟩ }
        (posRef i lo) ⟨x.2.next.addr, false⟩) x.1,
      hloop, rfl, hm2x, rfl, hxk, ?_, hInv3, ?_, ?_, hbhead3, hlen3, hm3x, hframe3⟩
    · rw [hstep, hloop]
      simp [hread]
    · have hk := hkiff3 key
      rw [hxk] at hkiff3
      intro hl'
      exact (hkiff3 key |>.mp hl').2 rfl
    · intro k
      have := hkiff3 k
      rw [hxk] at this
      exact this

theorem eraseIter_spec {hash : Nat → Nat} {m : HMap} {pos : Iter} {fuel : Nat}
    (hInv : Inv hash m) (hvc : ValidCursor hash m pos) (hfuel : 1 ≤ fuel) :
    ∃ pos' m' k, eraseIter m pos fuel = some (pos', m', 0) ∧ Inv hash m' ∧
      KeyLive hash m k ∧
      (∀ k', KeyLive hash m' k' ↔ (KeyLive hash m k' ∧ k' ≠ k)) ∧
      (∀ a nd0 nd1, lookupHeap m.heap a = some nd0 → lookupHeap m'.heap a = some nd1 →
        nd1.key = nd0.key ∧ nd1.value = nd0.value) := by
  obtain ⟨hib, lo, x, tl, hg, hprev, hcur, hsave⟩ := hvc
  obtain ⟨hB, hnodup, hbound, hchains⟩ := hInv
  obtain ⟨f, rfl⟩ : ∃ f, fuel = f + 1 := ⟨fuel - 1, by omega⟩
  have hxmem : x ∈ lo ++ x :: tl := List.mem_append_right lo (List.mem_cons_self x tl)
  have hlkx : lookupHeap m.heap x.1 = some x.2 := isChain_lookup hg.1 x hxmem
  have hxmark : x.2.next.mark = false := (hg.2.2.2 x hxmem).1
  have hlive : KeyLive hash m x.2.key := by
    have hxb : hash x.2.key % m.buckets.length = pos.bucket := (hg.2.2.2 x hxmem).2
    exact ⟨_, x, by rw [hxb]; exact hg.1, hxmem, rfl⟩
  have hothers : ∀ j, j < m.buckets.length → j ≠ pos.bucket → ∃ lj, GoodChain hash m j lj :=
    fun j hj _ => hchains j hj
  obtain ⟨hread, hm2x, hgood3, hInv3, hbhead3, hlen3, hnext3, hm3x, hkiff3, hframe3⟩ :=
    unlink_spec hB hib hnodup hbound hg hothers _ _ _ rfl rfl rfl
  have hmarkloop : eraseIterMarkLoop m x.1 x.2.next (f + 1)
      = some (x.2.next, { m with heap := setNextHeap m.heap x.1 ⟨x.2.next.addr, true⟩ }) := by
    simp only [eraseIterMarkLoop]
    rw [hxmark]
    simp [hlkx]
  have hstep : eraseIter m pos (f + 1)
      = match pos.info.cur, pos.info.prev with
        | some a, some pr =>
          (match lookupHeap m.heap a with
          | none => none
          | some nd =>
            match eraseIterMarkLoop m a nd.next (f + 1) with
            | none => none
            | some (next, m2) =>
              if readRef m2 pr = some ⟨some a, false⟩ then
                let m3 := reclaim (writeRef m2 pr ⟨next.addr, false⟩) a
                let info2 : FindInfo := { pos.info with cur := next.addr }
                let pos2 : Iter := ⟨pos.bucket, info2⟩
                some (if info2.cur = none then moveToNextBucket m3 pos2 else pos2, m3, 0)
              else
                match find nd.key pos.bucket m2 pos.info (findFuel m2) with
                | none => none
                | some (_, info2, m3) =>
                  let pos2 : Iter := ⟨pos.bucket, info2⟩
                  some (if info2.cur = none then moveToNextBucket m3 pos2 else pos2, m3, 1))
        | _, _ => none := rfl
  refine ⟨(if ({ pos.info with cur := x.2.next.addr } : FindInfo).cur = none
      then moveToNextBucket
        (reclaim (writeRef { m with heap := setNextHeap m.heap x.1 ⟨x.2.next.addr, true⟩ }
          (posRef pos.bucket lo) ⟨x.2.next.addr, false⟩) x.1)
        ⟨pos.bucket, { pos.info with cur := x.2.next.addr }⟩
      else ⟨pos.bucket, { pos.info with cur := x.2.next.addr }⟩),
    reclaim (writeRef { m with heap := setNextHeap m.heap x.1 ⟨x.2.next.addr, true⟩ }
      (posRef pos.bucket lo) ⟨x.2.next.addr, false⟩) x.1,
    x.2.key, ?_, hInv3, hlive, hkiff3, hframe3⟩
  rw [hstep, hcur, hprev]
  simp [hlkx, hmarkloop, hread]

/-! ## Iterator lemmas -/

theorem moveLoop_succ (m : HMap) (b : Nat) (info : FindInfo) (k : Nat) :
    moveLoop m b info (k + 1) =
      if info.cur = none ∧ b < m.buckets.length - 1 then
        moveLoop m (b + 1) ⟨some (Ref.bucket (b + 1)), info.next,
          (m.buckets.getD (b + 1) MarkedPtr.null).addr, none⟩ k
      else (b, info) := rfl

theorem moveLoop_cur_some {m : HMap} {b : Nat} {info : FindInfo} {a : Addr} {k : Nat}
    (h : info.cur = some a) : moveLoop m b info k = (b, info) := by
  cases k with
  | zero => rfl
  | succ k =>
    rw [moveLoop_succ, if_neg]
    intro hc
    rw [h] at hc
    cases hc.1

theorem moveLoop_bucket_bounds (m : HMap) :
    ∀ (k b : Nat) (info : FindInfo),
      b ≤ (moveLoop m b info k).1 ∧
      (moveLoop m b info k).1 ≤ max b (m.buckets.length - 1) := by
  intro k
  induction k with
  | zero => exact fun b info => ⟨Nat.le_refl b, Nat.le_max_left _ _⟩
  | succ k ih =>
    intro b info
    rw [moveLoop_succ]
    by_cases hc : info.cur = none ∧ b < m.buckets.length - 1
    · rw [if_pos hc]
      obtain ⟨h1, h2⟩ := ih (b + 1) ⟨some (Ref.bucket (b + 1)), info.next,
        (m.buckets.getD (b + 1) MarkedPtr.null).addr, none⟩
      constructor
      · omega
      · omega
    · rw [if_neg hc]
      exact ⟨Nat.le_refl b, Nat.le_max_left _ _⟩

theorem moveLoop_none_char (m : HMap) :
    ∀ (k b : Nat) (info : FindInfo), info.cur = none →
      m.buckets.length - 1 - b ≤ k →
      (((moveLoop m b info k).2.cur = none →
         (moveLoop m b info k).1 = max b (m.buckets.length - 1)) ∧
       (∀ a, (moveLoop m b info k).2.cur = some a →
         (bucketHead m (moveLoop m b info k).1).addr = some a ∧
         b < (moveLoop m b info k).1)) := by
  intro k
  induction k with
  | zero =>
    intro b info hcur hk
    constructor
    · intro _
      show b = max b (m.buckets.length - 1)
      omega
    · intro a ha
      rw [show moveLoop m b info 0 = (b, info) from rfl] at ha
      rw [hcur] at ha
      cases ha
  | succ k ih =>
    intro b info hcur hk
    rw [moveLoop_succ]
    by_cases hb : b < m.buckets.length - 1
    · rw [if_pos ⟨hcur, hb⟩]
      cases hhd : (m.buckets.getD (b + 1) MarkedPtr.null).addr with
      | none =>
        obtain ⟨ihn, ihs⟩ := ih (b + 1)
          ⟨some (Ref.bucket (b + 1)), info.next, none, none⟩ rfl (by omega)
        constructor
        · intro h
          rw [ihn h]
          omega
        · intro a ha
          obtain ⟨h1, h2⟩ := ihs a ha
          exact ⟨h1, by omega⟩
      | some a0 =>
        rw [moveLoop_cur_some
          (show (⟨some (Ref.bucket (b + 1)), info.next, some a0, none⟩ : FindInfo).cur
            = some a0 from rfl)]
        constructor
        · intro h
          cases h
        · intro a ha
          have haa : a0 = a := Option.some.inj ha
          subst haa
          refine ⟨?_, by omega⟩
          show (m.buckets.getD (b + 1) MarkedPtr.null).addr = some a0
          exact hhd
    · rw [if_neg (fun h => hb h.2)]
      constructor
      · intro _
        show b = max b (m.buckets.length - 1)
        omega
      · intro a ha
        rw [show ((b, info) : Nat × FindInfo).2.cur = info.cur from rfl, hcur] at ha
        cases ha

theorem moveLoop_cur_none {m : HMap}
    (hnull : ∀ i, (bucketHead m i).addr = none) :
    ∀ (k b : Nat) (info : FindInfo), info.cur = none →
      (moveLoop m b info k).2.cur = none := by
  intro k
  induction k with
  | zero => intro b info hcur; exact hcur
  | succ k ih =>
    intro b info hcur
    rw [moveLoop_succ]
    by_cases hc : info.cur = none ∧ b < m.buckets.length - 1
    · rw [if_pos hc]
      exact ih (b + 1) _ (hnull (b + 1))
    · rw [if_neg hc]
      exact hcur

theorem moveLoop_congr {m m' : HMap} (hb : m'.buckets = m.buckets) :
    ∀ (k b : Nat) (info : FindInfo), moveLoop m' b info k = moveLoop m b info k := by
  intro k
  induction k with
  | zero => intro b info; rfl
  | succ k ih =>
    intro b info
    rw [moveLoop_succ, moveLoop_succ, hb]
    by_cases hc : info.cur = none ∧ b < m.buckets.length - 1
    · rw [if_pos hc, if_pos hc, ih]
    · rw [if_neg hc, if_neg hc]

theorem moveToNextBucket_def (m : HMap) (it : Iter) :
    moveToNextBucket m it =
      ⟨(moveLoop m it.bucket { it.info with save := none } (m.buckets.length - it.bucket)).1,
       (moveLoop m it.bucket { it.info with save := none }
         (m.buckets.length - it.bucket)).2⟩ := rfl

theorem moveToNextBucket_bounds (m : HMap) (it : Iter) :
    it.bucket ≤ (moveToNextBucket m it).bucket ∧
    (moveToNextBucket m it).bucket ≤ max it.bucket (m.buckets.length - 1) := by
  rw [moveToNextBucket_def]
  exact moveLoop_bucket_bounds m _ _ _

theorem moveToNextBucket_char {m : HMap} {it : Iter} (hcur : it.info.cur = none) :
    ((moveToNextBucket m it).info.cur = none →
      (moveToNextBucket m it).bucket = max it.bucket (m.buckets.length - 1)) ∧
    (∀ a, (moveToNextBucket m it).info.cur = some a →
      (bucketHead m (moveToNextBucket m it).bucket).addr = some a ∧
      it.bucket < (moveToNextBucket m it).bucket) := by
  rw [moveToNextBucket_def]
  exact moveLoop_none_char m (m.buckets.length - it.bucket) it.bucket _ hcur (by omega)

theorem moveToNextBucket_congr {m m' : HMap} (hb : m'.buckets = m.buckets) (it : Iter) :
    moveToNextBucket m' it = moveToNextBucket m it := by
  rw [moveToNextBucket_def, moveToNextBucket_def, hb, moveLoop_congr hb]

theorem begin_congr {m m' : HMap} (hb : m'.buckets = m.buckets) :
    begin m' = begin m := by
  unfold begin
  rw [hb]
  simp only [moveToNextBucket_congr hb]

/-! ## Concrete states -/

theorem bucketHead_empty (b i : Nat) : bucketHead (emptyMap b) i = MarkedPtr.null := by
  show (List.replicate b MarkedPtr.null).getD i MarkedPtr.null = MarkedPtr.null
  rw [List.getD_eq_getElem?_getD, List.getElem?_replicate]
  by_cases h : i < b
  · simp [h]
  · simp [h]

theorem bucketHead_empty_addr (b i : Nat) : (bucketHead (emptyMap b) i).addr = none := by
  rw [bucketHead_empty]
  rfl

theorem Inv_empty (hash : Nat → Nat) {b : Nat} (hb : 0 < b) : Inv hash (emptyMap b) := by
  refine ⟨?_, ?_, ?_, ?_⟩
  · show 0 < (List.replicate b MarkedPtr.null).length
    simpa using hb
  · show (([] : Heap).map Prod.fst).Nodup
    simp
  · intro x hx
    cases hx
  · intro i _
    refine ⟨[], ?_, ?_, List.Pairwise.nil, ?_⟩
    · rw [show bucketHead (emptyMap b) i = MarkedPtr.null from bucketHead_empty b i]
      exact isChain_nil.mpr rfl
    · rw [show bucketHead (emptyMap b) i = MarkedPtr.null from bucketHead_empty b i]
      rfl
    · intro x hx
      cases hx

theorem not_keyLive_empty (hash : Nat → Nat) (b k : Nat) : ¬ KeyLive hash (emptyMap b) k := by
  rintro ⟨l, x, hchain, hx, -⟩
  rw [bucketHead_empty] at hchain
  cases l with
  | nil => cases hx
  | cons y tl =>
    have := (isChain_cons.mp hchain).1
    cases this

theorem Inv_mapOne (hash : Nat → Nat) : Inv hash mapOne := by
  refine ⟨Nat.one_pos, ?_, ?_, ?_⟩
  · decide
  · intro x hx
    rcases List.mem_singleton.mp hx with rfl
    decide
  · intro i hi
    have h1 : mapOne.buckets.length = 1 := rfl
    have h0 : i = 0 := by omega
    subst h0
    refine ⟨[(0, ⟨5, 7, MarkedPtr.null⟩)], ?_, rfl, ?_, ?_⟩
    · exact isChain_cons.mpr ⟨rfl, rfl, isChain_nil.mpr rfl⟩
    · show List.Pairwise (· < ·) [5]
      simp
    · intro x hx
      rcases List.mem_singleton.mp hx with rfl
      exact ⟨rfl, Nat.mod_one _⟩

theorem keyLive_mapOne (hash : Nat → Nat) : KeyLive hash mapOne 5 := by
  unfold KeyLive
  rw [show hash 5 % mapOne.buckets.length = 0 from Nat.mod_one _]
  exact ⟨[(0, ⟨5, 7, MarkedPtr.null⟩)], (0, ⟨5, 7, MarkedPtr.null⟩),
    isChain_cons.mpr ⟨rfl, rfl, isChain_nil.mpr rfl⟩, List.mem_singleton.mpr rfl, rfl⟩

/-! ## Invariant consequences: ordering and uniqueness -/

theorem inv_sorted {hash : Nat → Nat} {m : HMap} (hInv : Inv hash m) : SortedBuckets m := by
  intro i l hi hchain
  obtain ⟨l0, hg⟩ := hInv.2.2.2 i hi
  have hl : l = l0 := isChain_unique hchain hg.1
  subst hl
  exact ⟨hg.2.2.1.chain', fun x hx => (hg.2.2.2 x hx).1⟩

theorem inv_unique {hash : Nat → Nat} {m : HMap} (hInv : Inv hash m) : UniqueLiveKeys m := by
  intro i j li lj xi xj hi hj hci hcj hxi hxj hkey
  obtain ⟨l0i, hgi⟩ := hInv.2.2.2 i hi
  obtain ⟨l0j, hgj⟩ := hInv.2.2.2 j hj
  have hli : li = l0i := isChain_unique hci hgi.1
  have hlj : lj = l0j := isChain_unique hcj hgj.1
  rw [hli] at hxi
  rw [hlj] at hxj
  have hbi : hash xi.2.key % m.buckets.length = i := (hgi.2.2.2 xi hxi).2
  have hbj : hash xj.2.key % m.buckets.length = j := (hgj.2.2.2 xj hxj).2
  have hij : i = j := by rw [← hbi, ← hbj, hkey]
  subst hij
  have heq : l0j = l0i := isChain_unique hgj.1 hgi.1
  rw [heq] at hxj
  have hnd : (l0i.map (·.2.key)).Nodup := goodChain_keys_nodup hgi
  exact ⟨rfl, List.inj_on_of_nodup_map hnd hxi hxj hkey⟩

/-! ## Claims -/

/-- Claim C1: started from the head of bucket `hash key % B`, the kernel
`find` splits the bucket's sorted list as `lo ++ hi` where every node of `lo`
has key `< key` and the node the cursor stops on (the head of `hi`) has key
`≥ key`; it returns true iff that node's key equals `key`; on return
`info.cur` is the found node's address (null at end of list), `info.prev` is
the location whose stored tagged-pointer value is `⟨info.cur, false⟩`, and
`info.save` is the node owning `info.prev`, null iff `info.prev` is the
bucket head. -/
theorem claim_C1 {hash : Nat → Nat} {m : HMap} (key : Nat) (hInv : Inv hash m) :
    ∃ lo hi info,
      find key (hash key % m.buckets.length) m
          (headInfo (hash key % m.buckets.length)) (findFuel m)
        = some (foundIn hi key, info, m) ∧
      GoodChain hash m (hash key % m.buckets.length) (lo ++ hi) ∧
      (∀ x ∈ lo, x.2.key < key) ∧
      (∀ y, hi.head? = some y → key ≤ y.2.key) ∧
      (foundIn hi key = true ↔ ∃ y, hi.head? = some y ∧ y.2.key = key) ∧
      info.cur = headAddr hi ∧
      info.prev = some (posRef (hash key % m.buckets.length) lo) ∧
      readRef m (posRef (hash key % m.buckets.length) lo) = some ⟨info.cur, false⟩ ∧
      info.save = posSave lo ∧
      (info.save = none ↔ posRef (hash key % m.buckets.length) lo
        = Ref.bucket (hash key % m.buckets.length)) := by
  have hilt : hash key % m.buckets.length < m.buckets.length := Nat.mod_lt _ hInv.1
  obtain ⟨lo, hi, hg, hlo, hhge, hfind, hiff, hlt⟩ := op_find_setup key hInv
  refine ⟨lo, hi, _, hfind, hg, hlo, hhge, ?_, rfl, rfl, ?_, rfl, ?_⟩
  · constructor
    · intro hf
      cases hi with
      | nil => simp [foundIn] at hf
      | cons y tl => exact ⟨y, rfl, by simpa [foundIn] using hf⟩
    · rintro ⟨y, hy, hyk⟩
      cases hi with
      | nil => cases hy
      | cons z tl =>
        rw [List.head?_cons] at hy
        cases hy
        simp [foundIn, hyk]
  · rw [readRef_posRef hg.1 hilt, linkPtr_good hg]
  · show posSave lo = none ↔
      posRef (hash key % m.buckets.length) lo
        = Ref.bucket (hash key % m.buckets.length)
    cases hgl : lo.getLast? with
    | none =>
      unfold posSave posRef
      rw [hgl]
      simp
    | some x =>
      unfold posSave posRef
      rw [hgl]
      simp

/-- Claim C1 witness: the C1 cursor contract at the one-element map `mapOne`
with key 5. -/
theorem claim_C1_witness :
    Inv (fun k => k) mapOne ∧
    (∃ lo hi info,
      find 5 (5 % mapOne.buckets.length) mapOne
          (headInfo (5 % mapOne.buckets.length)) (findFuel mapOne)
        = some (foundIn hi 5, info, mapOne) ∧
      GoodChain (fun k => k) mapOne (5 % mapOne.buckets.length) (lo ++ hi) ∧
      (∀ x ∈ lo, x.2.key < 5) ∧
      (∀ y, hi.head? = some y → 5 ≤ y.2.key) ∧
      (foundIn hi 5 = true ↔ ∃ y, hi.head? = some y ∧ y.2.key = 5) ∧
      info.cur = headAddr hi ∧
      info.prev = some (posRef (5 % mapOne.buckets.length) lo) ∧
      readRef mapOne (posRef (5 % mapOne.buckets.length) lo) = some ⟨info.cur, false⟩ ∧
      info.save = posSave lo ∧
      (info.save = none ↔ posRef (5 % mapOne.buckets.length) lo
        = Ref.bucket (5 % mapOne.buckets.length))) :=
  ⟨Inv_mapOne (fun k => k), claim_C1 5 (Inv_mapOne (fun k => k))⟩

/-- Claim C2: the state invariant yields strictly increasing keys along every
bucket with no marked reachable node (`SortedBuckets`) and at-most-one live
occurrence of each key (`UniqueLiveKeys`), and every operation's result map
satisfies both again. -/
theorem claim_C2 {hash : Nat → Nat} {m : HMap} (key v fuel : Nat)
    (hInv : Inv hash m) (hfuel : 1 ≤ fuel) :
    (SortedBuckets m ∧ UniqueLiveKeys m) ∧
    (∀ b m1 c, contains hash m key = some (b, m1, c) →
      SortedBuckets m1 ∧ UniqueLiveKeys m1) ∧
    (∀ it m1 c, findKey hash m key = some (it, m1, c) →
      SortedBuckets m1 ∧ UniqueLiveKeys m1) ∧
    (∀ b m1 c, emplace hash m key v fuel = some (b, m1, c) →
      SortedBuckets m1 ∧ UniqueLiveKeys m1) ∧
    (∀ r m1 c, emplace_or_get hash m key v fuel = some (r, m1, c) →
      SortedBuckets m1 ∧ UniqueLiveKeys m1) ∧
    (∀ r m1 c, get_or_emplace hash m key v fuel = some (r, m1, c) →
      SortedBuckets m1 ∧ UniqueLiveKeys m1) ∧
    (∀ r m1 c fc, get_or_emplace_lazy hash m key v fuel = some (r, m1, c, fc) →
      SortedBuckets m1 ∧ UniqueLiveKeys m1) ∧
    (∀ b m1 c, erase hash m key fuel = some (b, m1, c) →
      SortedBuckets m1 ∧ UniqueLiveKeys m1) ∧
    (∀ pos pos1 m1 c, ValidCursor hash m pos → eraseIter m pos fuel = some (pos1, m1, c) →
      SortedBuckets m1 ∧ UniqueLiveKeys m1) := by
  have both : ∀ m2 : HMap, Inv hash m2 → SortedBuckets m2 ∧ UniqueLiveKeys m2 :=
    fun m2 h => ⟨inv_sorted h, inv_unique h⟩
  obtain ⟨rc, heqc, -⟩ := contains_spec key hInv
  obtain ⟨itf, heqf, -, -⟩ := findKey_spec key hInv
  obtain ⟨ite, be, me, heqe, hInve, -⟩ := emplace_or_get_spec key v hInv hfuel
  obtain ⟨itg, bg, mg, heqg, hInvg, -⟩ := get_or_emplace_spec key v hInv hfuel
  obtain ⟨itl, bl, ml, fcl, heql, hInvl, -⟩ := get_or_emplace_lazy_spec key v hInv hfuel
  refine ⟨both m hInv, ?_, ?_, ?_, ?_, ?_, ?_, ?_, ?_⟩
  · intro b m1 c h
    rw [heqc] at h
    simp only [Option.some.injEq, Prod.mk.injEq] at h
    obtain ⟨-, hm, -⟩ := h
    rw [← hm]
    exact both m hInv
  · intro it m1 c h
    rw [heqf] at h
    simp only [Option.some.injEq, Prod.mk.injEq] at h
    obtain ⟨-, hm, -⟩ := h
    rw [← hm]
    exact both m hInv
  · intro b m1 c h
    have hemp : emplace hash m key v fuel = some (be, me, 1) := by
      show (emplace_or_get hash m key v fuel).map (fun r => (r.1.2, r.2)) = _
      rw [heqe]
      rfl
    rw [hemp] at h
    simp only [Option.some.injEq, Prod.mk.injEq] at h
    obtain ⟨-, hm, -⟩ := h
    rw [← hm]
    exact both me hInve
  · intro r m1 c h
    rw [heqe] at h
    simp only [Option.some.injEq, Prod.mk.injEq] at h
    obtain ⟨-, hm, -⟩ := h
    rw [← hm]
    exact both me hInve
  · intro r m1 c h
    rw [heqg] at h
    simp only [Option.some.injEq, Prod.mk.injEq] at h
    obtain ⟨-, hm, -⟩ := h
    rw [← hm]
    exact both mg hInvg
  · intro r m1 c fc h
    rw [heql] at h
    simp only [Option.some.injEq, Prod.mk.injEq] at h
    obtain ⟨-, hm, -⟩ := h
    rw [← hm]
    exact both ml hInvl
  · intro b m1 c h
    by_cases hl : KeyLive hash m key
    · obtain ⟨info, a, nd2, m2, m', -, -, -, -, -, heqE, hInv', -⟩ :=
        (erase_spec key hInv hfuel).2 hl
      rw [heqE] at h
      simp only [Option.some.injEq, Prod.mk.injEq] at h
      obtain ⟨-, hm, -⟩ := h
      rw [← hm]
      exact both m' hInv'
    · have heqE := (erase_spec key hInv hfuel).1 hl
      rw [heqE] at h
      simp only [Option.some.injEq, Prod.mk.injEq] at h
      obtain ⟨-, hm, -⟩ := h
      rw [← hm]
      exact both m hInv
  · intro pos pos1 m1 c hvc h
    obtain ⟨pos', m', k0, heqI, hInv', -⟩ := eraseIter_spec hInv hvc hfuel
    rw [heqI] at h
    simp only [Option.some.injEq, Prod.mk.injEq] at h
    obtain ⟨-, hm, -⟩ := h
    rw [← hm]
    exact both m' hInv'

/-- Claim C2 witness: both invariant consequences at the empty one-bucket
map. -/
theorem claim_C2_witness :
    Inv (fun k => k) (emptyMap 1) ∧ 1 ≤ 1 ∧
    (SortedBuckets (emptyMap 1) ∧ UniqueLiveKeys (emptyMap 1)) :=
  ⟨Inv_empty (fun k => k) Nat.one_pos, Nat.le_refl 1,
    (claim_C2 0 0 1 (Inv_empty (fun k => k) Nat.one_pos) (Nat.le_refl 1)).1⟩

/-- Claim C3: a completed insert leaves the key live; on a live key,
`contains` returns true and `find(key)` returns an iterator on a node
carrying the key; liveness survives further inserts and erases of other
keys; and `erase(key)` on a live key returns true, after which the key is no
longer live. -/
theorem claim_C3 {hash : Nat → Nat} {m : HMap} (key v fuel : Nat)
    (hInv : Inv hash m) (hfuel : 1 ≤ fuel) :
    (∀ it b m' c, emplace_or_get hash m key v fuel = some ((it, b), m', c) →
      KeyLive hash m' key) ∧
    (∀ it b m' c, get_or_emplace hash m key v fuel = some ((it, b), m', c) →
      KeyLive hash m' key) ∧
    (KeyLive hash m key →
      contains hash m key = some (true, m, 1) ∧
      ∃ it, findKey hash m key = some (it, m, 1) ∧
        ∃ a nd, it.info.cur = some a ∧ lookupHeap m.heap a = some nd ∧ nd.key = key) ∧
    (∀ k' v' it b m' c, emplace_or_get hash m k' v' fuel = some ((it, b), m', c) →
      KeyLive hash m key → KeyLive hash m' key) ∧
    (∀ k' b m' c, k' ≠ key → erase hash m k' fuel = some (b, m', c) →
      KeyLive hash m key → KeyLive hash m' key) ∧
    (KeyLive hash m key →
      ∃ m', erase hash m key fuel = some (true, m', 1) ∧ ¬ KeyLive hash m' key) := by
  refine ⟨?_, ?_, ?_, ?_, ?_, ?_⟩
  · intro it b m' c h
    obtain ⟨it0, b0, m0, heq, -, -, hlive0, -⟩ := emplace_or_get_spec key v hInv hfuel
    rw [heq] at h
    simp only [Option.some.injEq, Prod.mk.injEq] at h
    obtain ⟨-, hm, -⟩ := h
    rw [← hm]
    exact hlive0
  · intro it b m' c h
    obtain ⟨it0, b0, m0, heq, -, -, hlive0, -⟩ := get_or_emplace_spec key v hInv hfuel
    rw [heq] at h
    simp only [Option.some.injEq, Prod.mk.injEq] at h
    obtain ⟨-, hm, -⟩ := h
    rw [← hm]
    exact hlive0
  · intro hl
    obtain ⟨rc, heqc, hiffc⟩ := contains_spec key hInv
    obtain ⟨itf, heqf, hposf, -⟩ := findKey_spec key hInv
    refine ⟨by rw [heqc, hiffc.mpr hl], itf, heqf, ?_⟩
    obtain ⟨-, a, nd, h1, h2, h3⟩ := hposf hl
    exact ⟨a, nd, h1, h2, h3⟩
  · intro k' v' it b m' c h hl
    obtain ⟨it0, b0, m0, heq, -, -, -, hkiff, -⟩ := emplace_or_get_spec k' v' hInv hfuel
    rw [heq] at h
    simp only [Option.some.injEq, Prod.mk.injEq] at h
    obtain ⟨-, hm, -⟩ := h
    rw [← hm]
    exact (hkiff key).mpr (Or.inr hl)
  · intro k' b m' c hne h hl
    by_cases hl' : KeyLive hash m k'
    · obtain ⟨info, a, nd2, m2, m'0, -, -, -, -, -, heqE, -, -, hkiff, -⟩ :=
        (erase_spec k' hInv hfuel).2 hl'
      rw [heqE] at h
      simp only [Option.some.injEq, Prod.mk.injEq] at h
      obtain ⟨-, hm, -⟩ := h
      rw [← hm]
      exact (hkiff key).mpr ⟨hl, fun hk => hne hk.symm⟩
    · have heqE := (erase_spec k' hInv hfuel).1 hl'
      rw [heqE] at h
      simp only [Option.some.injEq, Prod.mk.injEq] at h
      obtain ⟨-, hm, -⟩ := h
      rw [← hm]
      exact hl
  · intro hl
    obtain ⟨info, a, nd2, m2, m', -, -, -, -, -, heqE, -, hnl, -⟩ :=
      (erase_spec key hInv hfuel).2 hl
    exact ⟨m', heqE, hnl⟩

/-- Claim C3 witness: the round-trip reads at `mapOne`, whose key 5 is
live. -/
theorem claim_C3_witness :
    Inv (fun k => k) mapOne ∧ 1 ≤ 1 ∧ KeyLive (fun k => k) mapOne 5 ∧
    (contains (fun k => k) mapOne 5 = some (true, mapOne, 1) ∧
      ∃ it, findKey (fun k => k) mapOne 5 = some (it, mapOne, 1) ∧
        ∃ a nd, it.info.cur = some a ∧ lookupHeap mapOne.heap a = some nd ∧ nd.key = 5) :=
  ⟨Inv_mapOne (fun k => k), Nat.le_refl 1, keyLive_mapOne (fun k => k),
    (claim_C3 5 0 1 (Inv_mapOne (fun k => k)) (Nat.le_refl 1)).2.2.1 (keyLive_mapOne (fun k => k))⟩

/-- Claim C4: `erase(key)` on an absent key returns false and leaves the map
unchanged; on a present key it first marks the node's next pointer (the
state after `eraseLoop` holds the node with `next.mark = true`), then unlinks
and reclaims it and returns true; a second `erase(key)` on the result
returns false. -/
theorem claim_C4 {hash : Nat → Nat} {m : HMap} (key fuel : Nat)
    (hInv : Inv hash m) (hfuel : 1 ≤ fuel) :
    (¬ KeyLive hash m key → erase hash m key fuel = some (false, m, 1)) ∧
    (KeyLive hash m key → ∃ info a nd2 m2 m',
      eraseLoop key (hash key % m.buckets.length) m
          (headInfo (hash key % m.buckets.length)) 0 fuel = some (true, info, m2, 1) ∧
      info.cur = some a ∧
      lookupHeap m2.heap a = some nd2 ∧ nd2.next.mark = true ∧ nd2.key = key ∧
      erase hash m key fuel = some (true, m', 1) ∧
      lookupHeap m'.heap a = none ∧
      ¬ KeyLive hash m' key ∧
      erase hash m' key fuel = some (false, m', 1)) := by
  obtain ⟨habs, hpres⟩ := erase_spec key hInv hfuel
  refine ⟨habs, ?_⟩
  intro hl
  obtain ⟨info, a, nd2, m2, m', h1, h2, h3, h4, h5, h6, hInv', hnl', hkiff, hheads,
    hlen, hnone, hframe⟩ := hpres hl
  exact ⟨info, a, nd2, m2, m', h1, h2, h3, h4, h5, h6, hnone, hnl',
    (erase_spec key hInv' hfuel).1 hnl'⟩

/-- Claim C4 witness: erasing from the empty map returns false and changes
nothing. -/
theorem claim_C4_witness :
    Inv (fun k => k) (emptyMap 1) ∧ 1 ≤ 1 ∧
    (¬ KeyLive (fun k => k) (emptyMap 1) 0 →
      erase (fun k => k) (emptyMap 1) 0 1 = some (false, emptyMap 1, 1)) :=
  ⟨Inv_empty (fun k => k) Nat.one_pos, Nat.le_refl 1,
    (claim_C4 0 1 (Inv_empty (fun k => k) Nat.one_pos) (Nat.le_refl 1)).1⟩

/-- Claim C5: `get_or_emplace_lazy` invokes the factory at most once; when
the key is already present it returns `(iterator, false)` with the factory
never invoked (`fcnt = 0`) and the map unchanged; the factory is invoked
(exactly once) only on the inserting path, which is taken only when the find
reported the key absent. -/
theorem claim_C5 {hash : Nat → Nat} {m : HMap} (key fv : Nat) {fuel : Nat}
    (hInv : Inv hash m) (hfuel : 1 ≤ fuel) :
    ∃ it b m' fcnt,
      get_or_emplace_lazy hash m key fv fuel = some ((it, b), m', 1, fcnt) ∧
      fcnt ≤ 1 ∧
      (KeyLive hash m key → b = false ∧ fcnt = 0 ∧ m' = m) ∧
      (b = true → fcnt = 1 ∧ ¬ KeyLive hash m key) ∧
      (b = false ↔ KeyLive hash m key) ∧
      (∃ a nd, it.info.cur = some a ∧ lookupHeap m'.heap a = some nd ∧ nd.key = key) := by
  obtain ⟨it, b, m', fcnt, heq, hInv', hbiff, hlive', hkiff, hfast, hle1, hb1, hbk,
    hex, hlen⟩ := get_or_emplace_lazy_spec key fv hInv hfuel
  refine ⟨it, b, m', fcnt, heq, hle1, hfast, ?_, ?_, ?_⟩
  · intro hb
    exact ⟨hb1 hb, hbiff.mp hb⟩
  · constructor
    · intro hbf
      by_contra hnl
      have hbt := hbiff.mpr hnl
      rw [hbf] at hbt
      cases hbt
    · intro hl
      exact (hfast hl).1
  · obtain ⟨a, nd, h1, h2, h3, -⟩ := hex
    exact ⟨a, nd, h1, h2, h3⟩

/-- Claim C5 witness: the lazy contract at `mapOne` with the present key 5
and factory value 9. -/
theorem claim_C5_witness :
    Inv (fun k => k) mapOne ∧ 1 ≤ 1 ∧
    (∃ it b m' fcnt,
      get_or_emplace_lazy (fun k => k) mapOne 5 9 1 = some ((it, b), m', 1, fcnt) ∧
      fcnt ≤ 1 ∧
      (KeyLive (fun k => k) mapOne 5 → b = false ∧ fcnt = 0 ∧ m' = mapOne) ∧
      (b = true → fcnt = 1 ∧ ¬ KeyLive (fun k => k) mapOne 5) ∧
      (b = false ↔ KeyLive (fun k => k) mapOne 5) ∧
      (∃ a nd, it.info.cur = some a ∧ lookupHeap m'.heap a = some nd ∧ nd.key = 5)) :=
  ⟨Inv_mapOne (fun k => k), Nat.le_refl 1, claim_C5 5 9 (Inv_mapOne (fun k => k)) (Nat.le_refl 1)⟩

/-- Claim C6 counterexample: the iterator's dereference DOES allow external
mutation of the value.  `operator*`/`operator->` (lines 276-277) return a
non-const reference to `value_type = std::pair<const Key, Value>` (line 37),
so `pos->second = v` compiles and overwrites the Value of the published
node: on `mapOne`, the node at address 0 holds value 7, and after the
assignment through the iterator it holds 9. -/
theorem claim_C6_counterexample :
    lookupHeap mapOne.heap 0 = some ⟨5, 7, MarkedPtr.null⟩ ∧
    iterOne.info.cur = some 0 ∧
    lookupHeap (iterAssignSecond mapOne iterOne 9).heap 0 = some ⟨5, 9, MarkedPtr.null⟩ ∧
    (9 : Nat) ≠ 7 := by decide

/-- Claim C6 (amended): the map's own operations — contains, find, all three
insert variants and both erase variants — mutate only next pointers: every
node surviving an operation keeps its key and value; through the iterator,
the key (declared `const Key`) is immutable and the next pointer untouched,
but the Value component is externally mutable: assigning through the
iterator overwrites exactly the value of the node the cursor is on. -/
theorem claim_C6 {hash : Nat → Nat} {m : HMap} (key v fuel : Nat)
    (hInv : Inv hash m) (hfuel : 1 ≤ fuel) :
    (∀ b m' c, contains hash m key = some (b, m', c) →
      ∀ a nd0 nd1, lookupHeap m.heap a = some nd0 → lookupHeap m'.heap a = some nd1 →
        nd1.key = nd0.key ∧ nd1.value = nd0.value) ∧
    (∀ it m' c, findKey hash m key = some (it, m', c) →
      ∀ a nd0 nd1, lookupHeap m.heap a = some nd0 → lookupHeap m'.heap a = some nd1 →
        nd1.key = nd0.key ∧ nd1.value = nd0.value) ∧
    (∀ b m' c, emplace hash m key v fuel = some (b, m', c) →
      ∀ a nd0 nd1, lookupHeap m.heap a = some nd0 → lookupHeap m'.heap a = some nd1 →
        nd1.key = nd0.key ∧ nd1.value = nd0.value) ∧
    (∀ r m' c, emplace_or_get hash m key v fuel = some (r, m', c) →
      ∀ a nd0 nd1, lookupHeap m.heap a = some nd0 → lookupHeap m'.heap a = some nd1 →
        nd1.key = nd0.key ∧ nd1.value = nd0.value) ∧
    (∀ r m' c, get_or_emplace hash m key v fuel = some (r, m', c) →
      ∀ a nd0 nd1, lookupHeap m.heap a = some nd0 → lookupHeap m'.heap a = some nd1 →
        nd1.key = nd0.key ∧ nd1.value = nd0.value) ∧
    (∀ r m' c fc, get_or_emplace_lazy hash m key v fuel = some (r, m', c, fc) →
      ∀ a nd0 nd1, lookupHeap m.heap a = some nd0 → lookupHeap m'.heap a = some nd1 →
        nd1.key = nd0.key ∧ nd1.value = nd0.value) ∧
    (∀ b m' c, erase hash m key fuel = some (b, m', c) →
      ∀ a nd0 nd1, lookupHeap m.heap a = some nd0 → lookupHeap m'.heap a = some nd1 →
        nd1.key = nd0.key ∧ nd1.value = nd0.value) ∧
    (∀ pos pos1 m1 c, ValidCursor hash m pos → eraseIter m pos fuel = some (pos1, m1, c) →
      ∀ a nd0 nd1, lookupHeap m.heap a = some nd0 → lookupHeap m1.heap a = some nd1 →
        nd1.key = nd0.key ∧ nd1.value = nd0.value) ∧
    (∀ pos w a nd0, lookupHeap m.heap a = some nd0 →
      ∃ nd1, lookupHeap (iterAssignSecond m pos w).heap a = some nd1 ∧
        nd1.key = nd0.key ∧ nd1.next = nd0.next ∧
        (pos.info.cur = some a → nd1.value = w) ∧
        (pos.info.cur ≠ some a → nd1.value = nd0.value)) := by
  have hid : ∀ a nd0 nd1, lookupHeap m.heap a = some nd0 → lookupHeap m.heap a = some nd1 →
      nd1.key = nd0.key ∧ nd1.value = nd0.value := by
    intro a nd0 nd1 h0 h1
    rw [h0] at h1
    cases Option.some.inj h1
    exact ⟨rfl, rfl⟩
  refine ⟨?_, ?_, ?_, ?_, ?_, ?_, ?_, ?_, ?_⟩
  · intro b m' c h
    obtain ⟨rc, heqc, -⟩ := contains_spec key hInv
    rw [heqc] at h
    simp only [Option.some.injEq, Prod.mk.injEq] at h
    obtain ⟨-, hm, -⟩ := h
    rw [← hm]
    exact hid
  · intro it m' c h
    obtain ⟨itf, heqf, -, -⟩ := findKey_spec key hInv
    rw [heqf] at h
    simp only [Option.some.injEq, Prod.mk.injEq] at h
    obtain ⟨-, hm, -⟩ := h
    rw [← hm]
    exact hid
  · intro b m' c h
    obtain ⟨it0, b0, m0, heq, -, -, -, -, -, -, -, -, -, hframe⟩ :=
      emplace_or_get_spec key v hInv hfuel
    have hemp : emplace hash m key v fuel = some (b0, m0, 1) := by
      show (emplace_or_get hash m key v fuel).map (fun r => (r.1.2, r.2)) = _
      rw [heq]
      rfl
    rw [hemp] at h
    simp only [Option.some.injEq, Prod.mk.injEq] at h
    obtain ⟨-, hm, -⟩ := h
    rw [← hm]
    exact hframe
  · intro r m' c h
    obtain ⟨it0, b0, m0, heq, -, -, -, -, -, -, -, -, -, hframe⟩ :=
      emplace_or_get_spec key v hInv hfuel
    rw [heq] at h
    simp only [Option.some.injEq, Prod.mk.injEq] at h
    obtain ⟨-, hm, -⟩ := h
    rw [← hm]
    exact hframe
  · intro r m' c h
    obtain ⟨it0, b0, m0, heq, -, -, -, -, -, -, -, -, -, hframe⟩ :=
      get_or_emplace_spec key v hInv hfuel
    rw [heq] at h
    simp only [Option.some.injEq, Prod.mk.injEq] at h
    obtain ⟨-, hm, -⟩ := h
    rw [← hm]
    exact hframe
  · intro r m' c fc h
    obtain ⟨it0, b0, m0, fc0, heq, -, -, -, -, -, -, -, -, -, -, hframe⟩ :=
      get_or_emplace_lazy_spec key v hInv hfuel
    rw [heq] at h
    simp only [Option.some.injEq, Prod.mk.injEq] at h
    obtain ⟨-, hm, -⟩ := h
    rw [← hm]
    exact hframe
  · intro b m' c h
    by_cases hl : KeyLive hash m key
    · obtain ⟨info, a0, nd2, m2, m'0, -, -, -, -, -, heqE, -, -, -, -, -, -, hframe⟩ :=
        (erase_spec key hInv hfuel).2 hl
      rw [heqE] at h
      simp only [Option.some.injEq, Prod.mk.injEq] at h
      obtain ⟨-, hm, -⟩ := h
      rw [← hm]
      exact hframe
    · have heqE := (erase_spec key hInv hfuel).1 hl
      rw [heqE] at h
      simp only [Option.some.injEq, Prod.mk.injEq] at h
      obtain ⟨-, hm, -⟩ := h
      rw [← hm]
      intro a nd0 nd1 h0 h1
      rw [h0] at h1
      cases Option.some.inj h1
      exact ⟨rfl, rfl⟩
  · intro pos pos1 m1 c hvc h
    obtain ⟨pos', m'0, k0, heqI, -, -, -, hframe⟩ := eraseIter_spec hInv hvc hfuel
    rw [heqI] at h
    simp only [Option.some.injEq, Prod.mk.injEq] at h
    obtain ⟨-, hm, -⟩ := h
    rw [← hm]
    exact hframe
  · intro pos w a nd0 hl0
    cases hc : pos.info.cur with
    | none =>
      have hia : iterAssignSecond m pos w = m := by
        unfold iterAssignSecond
        rw [hc]
      refine ⟨nd0, ?_, rfl, rfl, ?_, fun _ => rfl⟩
      · rw [hia]
        exact hl0
      · intro h
        cases h
    | some a0 =>
      have hia : iterAssignSecond m pos w
          = { m with heap := setValueHeap m.heap a0 w } := by
        unfold iterAssignSecond
        rw [hc]
      by_cases haa : a = a0
      · subst haa
        refine ⟨{ nd0 with value := w }, ?_, rfl, rfl, fun _ => rfl, ?_⟩
        · rw [hia]
          show lookupHeap (setValueHeap m.heap a w) a = _
          rw [lookupHeap_setValue, if_pos rfl, hl0]
          rfl
        · intro hne
          exact absurd rfl hne
      · refine ⟨nd0, ?_, rfl, rfl, ?_, fun _ => rfl⟩
        · rw [hia]
          show lookupHeap (setValueHeap m.heap a0 w) a = some nd0
          rw [lookupHeap_setValue, if_neg haa]
          exact hl0
        · intro h
          exact absurd (Option.some.inj h).symm haa

/-- Claim C6 witness: the amended per-node frame of the iterator assignment
at `mapOne`. -/
theorem claim_C6_witness :
    Inv (fun k => k) mapOne ∧ 1 ≤ 1 ∧
    (∀ pos w a nd0, lookupHeap mapOne.heap a = some nd0 →
      ∃ nd1, lookupHeap (iterAssignSecond mapOne pos w).heap a = some nd1 ∧
        nd1.key = nd0.key ∧ nd1.next = nd0.next ∧
        (pos.info.cur = some a → nd1.value = w) ∧
        (pos.info.cur ≠ some a → nd1.value = nd0.value)) :=
  ⟨Inv_mapOne (fun k => k), Nat.le_refl 1,
    (claim_C6 5 9 1 (Inv_mapOne (fun k => k)) (Nat.le_refl 1)).2.2.2.2.2.2.2.2⟩

/-- Claim C7 counterexample: `move_to_next_bucket` saturates at `B - 1`, not
at `B`.  On the empty two-bucket map, advancing from bucket 0 stops with
`bucket = 1 = B - 1` (cursor still null), while the claim's saturation index
`B` is 2. -/
theorem claim_C7_counterexample :
    (emptyMap 2).buckets.length = 2 ∧
    (moveToNextBucket (emptyMap 2) ⟨0, headInfo 0⟩).info.cur = none ∧
    (moveToNextBucket (emptyMap 2) ⟨0, headInfo 0⟩).bucket = 1 ∧
    (1 : Nat) ≠ 2 := by decide

/-- Claim C7 (amended): the end iterator carries `bucket = B`;
`move_to_next_bucket` never decreases the bucket index and never moves it
past `max bucket (B - 1)` (so an index within `[0, B]` stays within
`[0, B]`); started with a null cursor it either stops on the first
non-null bucket head (strictly advancing) or saturates at `B - 1` — the
last real bucket, per the loop condition `bucket < Buckets - 1` — with the
cursor still null, not at `B` as the spec states. -/
theorem claim_C7 (m : HMap) (it : Iter) :
    (endIter m).bucket = m.buckets.length ∧
    it.bucket ≤ (moveToNextBucket m it).bucket ∧
    (moveToNextBucket m it).bucket ≤ max it.bucket (m.buckets.length - 1) ∧
    (it.bucket ≤ m.buckets.length →
      (moveToNextBucket m it).bucket ≤ m.buckets.length) ∧
    (it.info.cur = none →
      ((moveToNextBucket m it).info.cur = none →
        (moveToNextBucket m it).bucket = max it.bucket (m.buckets.length - 1)) ∧
      (∀ a, (moveToNextBucket m it).info.cur = some a →
        (bucketHead m (moveToNextBucket m it).bucket).addr = some a ∧
        it.bucket < (moveToNextBucket m it).bucket)) := by
  obtain ⟨h1, h2⟩ := moveToNextBucket_bounds m it
  refine ⟨rfl, h1, h2, ?_, fun hcur => moveToNextBucket_char hcur⟩
  intro hb
  omega

/-- Claim C8: every operation runs on bucket `hash key % B` (the iterator a
successful operation returns carries that bucket index) and, sequentially,
invokes the list kernel at most twice per call (the trailing component of
each result counts the kernel invocations). -/
theorem claim_C8 {hash : Nat → Nat} {m : HMap} (key v fuel : Nat)
    (hInv : Inv hash m) (hfuel : 1 ≤ fuel) :
    (∀ b m1 c, contains hash m key = some (b, m1, c) → c ≤ 2) ∧
    (∀ it m1 c, findKey hash m key = some (it, m1, c) →
      c ≤ 2 ∧ (KeyLive hash m key → it.bucket = hash key % m.buckets.length)) ∧
    (∀ it b m1 c, emplace_or_get hash m key v fuel = some ((it, b), m1, c) →
      c ≤ 2 ∧ it.bucket = hash key % m.buckets.length) ∧
    (∀ it b m1 c, get_or_emplace hash m key v fuel = some ((it, b), m1, c) →
      c ≤ 2 ∧ it.bucket = hash key % m.buckets.length) ∧
    (∀ it b m1 c fc, get_or_emplace_lazy hash m key v fuel = some ((it, b), m1, c, fc) →
      c ≤ 2 ∧ it.bucket = hash key % m.buckets.length) ∧
    (∀ b m1 c, erase hash m key fuel = some (b, m1, c) → c ≤ 2) := by
  refine ⟨?_, ?_, ?_, ?_, ?_, ?_⟩
  · intro b m1 c h
    obtain ⟨rc, heqc, -⟩ := contains_spec key hInv
    rw [heqc] at h
    simp only [Option.some.injEq, Prod.mk.injEq] at h
    obtain ⟨-, -, hc⟩ := h
    omega
  · intro it m1 c h
    obtain ⟨itf, heqf, hposf, -⟩ := findKey_spec key hInv
    rw [heqf] at h
    simp only [Option.some.injEq, Prod.mk.injEq] at h
    obtain ⟨hit, -, hc⟩ := h
    refine ⟨by omega, ?_⟩
    intro hl
    rw [← hit]
    exact (hposf hl).1
  · intro it b m1 c h
    obtain ⟨it0, b0, m0, heq, -, -, -, -, -, hbk, -⟩ := emplace_or_get_spec key v hInv hfuel
    rw [heq] at h
    simp only [Option.some.injEq, Prod.mk.injEq] at h
    obtain ⟨⟨hit, -⟩, -, hc⟩ := h
    exact ⟨by omega, by rw [← hit]; exact hbk⟩
  · intro it b m1 c h
    obtain ⟨it0, b0, m0, heq, -, -, -, -, -, hbk, -⟩ := get_or_emplace_spec key v hInv hfuel
    rw [heq] at h
    simp only [Option.some.injEq, Prod.mk.injEq] at h
    obtain ⟨⟨hit, -⟩, -, hc⟩ := h
    exact ⟨by omega, by rw [← hit]; exact hbk⟩
  · intro it b m1 c fc h
    obtain ⟨it0, b0, m0, fc0, heq, -, -, -, -, -, -, -, hbk, -⟩ :=
      get_or_emplace_lazy_spec key v hInv hfuel
    rw [heq] at h
    simp only [Option.some.injEq, Prod.mk.injEq] at h
    obtain ⟨⟨hit, -⟩, -, hc, -⟩ := h
    exact ⟨by omega, by rw [← hit]; exact hbk⟩
  · intro b m1 c h
    by_cases hl : KeyLive hash m key
    · obtain ⟨info, a, nd2, m2, m', -, -, -, -, -, heqE, -⟩ :=
        (erase_spec key hInv hfuel).2 hl
      rw [heqE] at h
      simp only [Option.some.injEq, Prod.mk.injEq] at h
      obtain ⟨-, -, hc⟩ := h
      omega
    · have heqE := (erase_spec key hInv hfuel).1 hl
      rw [heqE] at h
      simp only [Option.some.injEq, Prod.mk.injEq] at h
      obtain ⟨-, -, hc⟩ := h
      omega

/-- Claim C8 witness: the kernel-call bound for `contains` at `mapOne`. -/
theorem claim_C8_witness :
    Inv (fun k => k) mapOne ∧ 1 ≤ 1 ∧
    (∀ b m1 c, contains (fun k => k) mapOne 5 = some (b, m1, c) → c ≤ 2) :=
  ⟨Inv_mapOne (fun k => k), Nat.le_refl 1,
    (claim_C8 5 0 1 (Inv_mapOne (fun k => k)) (Nat.le_refl 1)).1⟩

/-- Claim C9: `emplace` is `emplace_or_get` with the iterator discarded —
pointwise its result is the image of `emplace_or_get`'s under dropping the
iterator, so both succeed or fail together, return the same boolean, and
produce the same map; the shared boolean is true exactly when the key was
absent, and afterwards the key is live. -/
theorem claim_C9 {hash : Nat → Nat} {m : HMap} (key v : Nat) {fuel : Nat}
    (hInv : Inv hash m) (hfuel : 1 ≤ fuel) :
    (∀ r, emplace_or_get hash m key v fuel = r →
      emplace hash m key v fuel = r.map (fun x => (x.1.2, x.2))) ∧
    ∃ it b m', emplace_or_get hash m key v fuel = some ((it, b), m', 1) ∧
      emplace hash m key v fuel = some (b, m', 1) ∧
      (b = true ↔ ¬ KeyLive hash m key) ∧
      KeyLive hash m' key ∧
      (∀ k, KeyLive hash m' k ↔ (k = key ∨ KeyLive hash m k)) := by
  obtain ⟨it, b, m', heq, hInv', hbiff, hlive', hkiff, -⟩ :=
    emplace_or_get_spec key v hInv hfuel
  refine ⟨?_, it, b, m', heq, ?_, hbiff, hlive', hkiff⟩
  · intro r hr
    show (emplace_or_get hash m key v fuel).map (fun x => (x.1.2, x.2)) = _
    rw [hr]
  · show (emplace_or_get hash m key v fuel).map (fun x => (x.1.2, x.2)) = some (b, m', 1)
    rw [heq]
    rfl

/-- Claim C9 witness: the pointwise refinement equation at `mapOne`. -/
theorem claim_C9_witness :
    Inv (fun k => k) mapOne ∧ 1 ≤ 1 ∧
    (∀ r, emplace_or_get (fun k => k) mapOne 5 9 1 = r →
      emplace (fun k => k) mapOne 5 9 1 = r.map (fun x => (x.1.2, x.2))) :=
  ⟨Inv_mapOne (fun k => k), Nat.le_refl 1, (claim_C9 5 9 (Inv_mapOne (fun k => k)) (Nat.le_refl 1)).1⟩

/-- Claim C10: on a map whose bucket heads are all null, `begin()` succeeds
and yields an iterator with a null cursor, equal to `end()` under the
iterator equality (which compares only the current-node pointers); and
`begin` reads only the bucket array — it is invariant under any change of
the heap, so it dereferences no node while scanning the empty buckets. -/
theorem claim_C10 {m : HMap} (hB : 0 < m.buckets.length)
    (hnull : ∀ i, (bucketHead m i).addr = none) :
    ∃ it, begin m = some it ∧ it.info.cur = none ∧ (endIter m).info.cur = none ∧
      iterEq it (endIter m) = true ∧
      (∀ m', m'.buckets = m.buckets → begin m' = begin m) := by
  obtain ⟨hd, hhd⟩ : ∃ hd, m.buckets[0]? = some hd :=
    ⟨m.buckets[0], List.getElem?_eq_getElem hB⟩
  have hhda : hd.addr = none := by
    have h0 : bucketHead m 0 = hd := by
      simp [bucketHead, List.getD_eq_getElem?_getD, hhd]
    rw [← h0]
    exact hnull 0
  have hstep : begin m
      = some (if (⟨some (Ref.bucket 0), MarkedPtr.null, hd.addr, none⟩ : FindInfo).cur = none
          then moveToNextBucket m ⟨0, ⟨some (Ref.bucket 0), MarkedPtr.null, hd.addr, none⟩⟩
          else ⟨0, ⟨some (Ref.bucket 0), MarkedPtr.null, hd.addr, none⟩⟩) := by
    unfold begin
    rw [hhd]
  rw [hhda] at hstep
  have hbeg : begin m
      = some (moveToNextBucket m ⟨0, ⟨some (Ref.bucket 0), MarkedPtr.null, none, none⟩⟩) := by
    rw [hstep]
    simp
  have hcur : (moveToNextBucket m
      ⟨0, ⟨some (Ref.bucket 0), MarkedPtr.null, none, none⟩⟩).info.cur = none := by
    rw [moveToNextBucket_def]
    exact moveLoop_cur_none hnull _ _ _ rfl
  refine ⟨_, hbeg, hcur, rfl, ?_, fun m' hb => begin_congr hb⟩
  unfold iterEq
  rw [hcur]
  rfl

/-- Claim C10 witness: `begin = end` on the empty two-bucket map. -/
theorem claim_C10_witness :
    0 < (emptyMap 2).buckets.length ∧
    (∀ i, (bucketHead (emptyMap 2) i).addr = none) ∧
    (∃ it, begin (emptyMap 2) = some it ∧ it.info.cur = none ∧
      (endIter (emptyMap 2)).info.cur = none ∧
      iterEq it (endIter (emptyMap 2)) = true ∧
      (∀ m', m'.buckets = (emptyMap 2).buckets → begin m' = begin (emptyMap 2))) :=
  ⟨by decide, fun i => bucketHead_empty_addr 2 i,
    claim_C10 (by decide) (fun i => bucketHead_empty_addr 2 i)⟩

end HarrisMichael
